import Mathlib

/-!
Verification of the bulk email-merge sender against its specification.

The Python sources (`utils.py`, `email_sender.py`, `gmail_sender.py`,
`app.py`) are shallowly embedded below: pure functions become Lean
functions over `String`/`List Char`, pandas rows become explicit lists of
records, the stateful bulk-send loop becomes explicit state passing over a
`SendStatus` structure, and the network transport is an explicit outcome
parameter.  All definitions are executable.
-/

namespace Sender

/-! ## Character classes used by the email regex

`utils.validate_email` and `EmailSender._is_valid_email` both use the
pattern `^[a-zA-Z0-9._%+-]+@[a-zA-Z0-9.-]+\.[a-zA-Z]{2,}$` (an ASCII regex:
Python character classes `a-z`, `A-Z`, `0-9` are code-point ranges). -/

/-- ASCII letter, `[a-zA-Z]`. -/
def isAsciiLetter (c : Char) : Bool :=
  (97 ≤ c.toNat && c.toNat ≤ 122) || (65 ≤ c.toNat && c.toNat ≤ 90)

/-- ASCII digit, `[0-9]`. -/
def isAsciiDigit (c : Char) : Bool :=
  48 ≤ c.toNat && c.toNat ≤ 57

/-- Local-part class `[a-zA-Z0-9._%+-]`. -/
def isLocalChar (c : Char) : Bool :=
  isAsciiLetter c || isAsciiDigit c || c == '.' || c == '_' || c == '%' || c == '+' || c == '-'

/-- Domain class `[a-zA-Z0-9.-]`. -/
def isDomainChar (c : Char) : Bool :=
  isAsciiLetter c || isAsciiDigit c || c == '.' || c == '-'

/-! ## The anchored regex as an executable matcher

A whole-input match of `[a-zA-Z0-9.-]+\.[a-zA-Z]{2,}` (resp. of the full
pattern) exists iff some split position witnesses it; we quantify over all
split positions with `List.any` over `List.range`, which is exactly the
backtracking search the regex engine performs. -/

/-- Whole-list match of `[a-zA-Z0-9.-]+\.[a-zA-Z]{2,}`: some split
`cs = d ++ [dot] ++ t` with `d` nonempty all domain chars and `t` at
least two ASCII letters. -/
def domainMatch (cs : List Char) : Bool :=
  (List.range cs.length).any (fun i =>
    decide (cs.take i ≠ []) && (cs.take i).all isDomainChar
      && ((cs.drop i).head? == some '.')
      && decide (2 ≤ (cs.drop i).tail.length)
      && (cs.drop i).tail.all isAsciiLetter)

/-- Whole-list match of `[a-zA-Z0-9._%+-]+@[a-zA-Z0-9.-]+\.[a-zA-Z]{2,}`. -/
def emailCore (cs : List Char) : Bool :=
  (List.range cs.length).any (fun i =>
    decide (cs.take i ≠ []) && (cs.take i).all isLocalChar
      && ((cs.drop i).head? == some '@')
      && domainMatch (cs.drop i).tail)

/-- Python `re.match` of the anchored pattern: `$` matches at the end of
the string or just before a single trailing newline. -/
def pyEmailMatch (cs : List Char) : Bool :=
  emailCore cs || ((cs.getLast? == some '\n') && emailCore cs.dropLast)

end Sender

namespace Utils

open Sender

/-- Embedding of `utils.validate_email`: guard for empty / NA input, then the anchored
regex match.  Inputs are modelled as strings (the only values the
pipeline feeds it after ingestion); `pd.isna` is false on every string. -/
def validate_email (s : String) : Bool :=
  if s.data.isEmpty then false else pyEmailMatch s.data

end Utils

namespace Sender

/-! ## Characterization of the matcher -/

theorem domainMatch_eq_true_iff (cs : List Char) :
    domainMatch cs = true ↔
      ∃ d t : List Char, cs = d ++ '.' :: t ∧ d ≠ [] ∧ d.all isDomainChar
        ∧ 2 ≤ t.length ∧ t.all isAsciiLetter := by
  unfold domainMatch
  rw [List.any_eq_true]
  constructor
  · rintro ⟨i, _hi, hf⟩
    simp only [Bool.and_eq_true, beq_iff_eq, decide_eq_true_eq] at hf
    obtain ⟨⟨⟨⟨hne, hdom⟩, hdot⟩, hlen⟩, halpha⟩ := hf
    refine ⟨cs.take i, (cs.drop i).tail, ?_, hne, hdom, hlen, halpha⟩
    have hcons : cs.drop i = '.' :: (cs.drop i).tail := by
      cases h : cs.drop i with
      | nil => rw [h] at hdot; simp at hdot
      | cons a l => rw [h] at hdot; simp only [List.head?_cons, Option.some.injEq] at hdot
                    simp [hdot]
    have h2 := List.take_append_drop i cs
    rw [hcons] at h2
    exact h2.symm
  · rintro ⟨d, t, rfl, hne, hdom, hlen, halpha⟩
    refine ⟨d.length, ?_, ?_⟩
    · rw [List.mem_range, List.length_append, List.length_cons]
      omega
    · rw [List.take_left, List.drop_left]
      simp only [List.head?_cons, List.tail_cons, Bool.and_eq_true, beq_iff_eq,
        decide_eq_true_eq]
      exact ⟨⟨⟨⟨hne, hdom⟩, trivial⟩, hlen⟩, halpha⟩

theorem emailCore_eq_true_iff (cs : List Char) :
    emailCore cs = true ↔
      ∃ l r : List Char, cs = l ++ '@' :: r ∧ l ≠ [] ∧ l.all isLocalChar
        ∧ domainMatch r = true := by
  unfold emailCore
  rw [List.any_eq_true]
  constructor
  · rintro ⟨i, _hi, hf⟩
    simp only [Bool.and_eq_true, beq_iff_eq, decide_eq_true_eq] at hf
    obtain ⟨⟨⟨hne, hloc⟩, hat⟩, hdm⟩ := hf
    refine ⟨cs.take i, (cs.drop i).tail, ?_, hne, hloc, hdm⟩
    have hcons : cs.drop i = '@' :: (cs.drop i).tail := by
      cases h : cs.drop i with
      | nil => rw [h] at hat; simp at hat
      | cons a l => rw [h] at hat; simp only [List.head?_cons, Option.some.injEq] at hat
                    simp [hat]
    have h2 := List.take_append_drop i cs
    rw [hcons] at h2
    exact h2.symm
  · rintro ⟨l, r, rfl, hne, hloc, hdm⟩
    refine ⟨l.length, ?_, ?_⟩
    · rw [List.mem_range, List.length_append, List.length_cons]
      omega
    · rw [List.take_left, List.drop_left]
      simp only [List.head?_cons, List.tail_cons, Bool.and_eq_true, beq_iff_eq,
        decide_eq_true_eq]
      exact ⟨⟨⟨hne, hloc⟩, trivial⟩, hdm⟩

/-- A successful core match forces an `@` in the input. -/
theorem emailCore_mem_at {cs : List Char} (h : emailCore cs = true) : '@' ∈ cs := by
  obtain ⟨l, r, rfl, -, -, -⟩ := (emailCore_eq_true_iff cs).1 h
  exact List.mem_append.2 (Or.inr (List.mem_cons_self _ _))

/-- A successful core match forces a dot in the input. -/
theorem emailCore_mem_dot {cs : List Char} (h : emailCore cs = true) : '.' ∈ cs := by
  obtain ⟨l, r, rfl, -, -, hdm⟩ := (emailCore_eq_true_iff cs).1 h
  obtain ⟨d, t, rfl, -, -, -, -⟩ := (domainMatch_eq_true_iff r).1 hdm
  refine List.mem_append.2 (Or.inr ?_)
  exact List.mem_cons_of_mem _ (List.mem_append.2 (Or.inr (List.mem_cons_self _ _)))

/-- A successful core match ends in a dot-preceded, all-letter TLD of
length at least 2. -/
theorem emailCore_tld {cs : List Char} (h : emailCore cs = true) :
    ∃ t : List Char, ('.' :: t) <:+ cs ∧ 2 ≤ t.length ∧ t.all isAsciiLetter := by
  obtain ⟨l, r, rfl, -, -, hdm⟩ := (emailCore_eq_true_iff cs).1 h
  obtain ⟨d, t, rfl, -, -, hlen, halpha⟩ := (domainMatch_eq_true_iff r).1 hdm
  exact ⟨t, ⟨l ++ '@' :: d, by simp⟩, hlen, halpha⟩

end Sender

namespace Sender

/-- Two suffixes of one list are nested: the shorter is a suffix of the
longer. -/
theorem suffix_of_suffix_of_length_le {α : Type} {l s₁ s₂ : List α}
    (h1 : s₁ <:+ l) (h2 : s₂ <:+ l) (hle : s₁.length ≤ s₂.length) : s₁ <:+ s₂ := by
  obtain ⟨w1, hw1⟩ := h1
  obtain ⟨w2, hw2⟩ := h2
  have hlen : w1.length + s₁.length = w2.length + s₂.length := by
    have := congrArg List.length (hw1.trans hw2.symm)
    simpa [List.length_append] using this
  have e1 : l.drop w1.length = s₁ := by rw [← hw1]; exact List.drop_left w1 s₁
  have e2 : l.drop w2.length = s₂ := by rw [← hw2]; exact List.drop_left w2 s₂
  have hk : w1.length = (w1.length - w2.length) + w2.length := by omega
  have : s₁ = s₂.drop (w1.length - w2.length) := by
    rw [← e1, ← e2, List.drop_drop, Nat.add_comm, ← hk]
  rw [this]
  exact List.drop_suffix _ _

/-- The positive direction of the regex on an explicit decomposition. -/
theorem emailCore_pos (l d t : List Char) (hl : l ≠ []) (hl2 : l.all isLocalChar = true)
    (hd : d ≠ []) (hd2 : d.all isDomainChar = true)
    (ht : 2 ≤ t.length) (ht2 : t.all isAsciiLetter = true) :
    emailCore (l ++ '@' :: (d ++ '.' :: t)) = true :=
  (emailCore_eq_true_iff _).2
    ⟨l, _, rfl, hl, hl2, (domainMatch_eq_true_iff _).2 ⟨d, t, rfl, hd, hd2, ht, ht2⟩⟩

theorem pyEmailMatch_false_of_no_at {cs : List Char} (h : '@' ∉ cs) :
    pyEmailMatch cs = false := by
  have h1 : emailCore cs = false := by
    cases hc : emailCore cs
    · rfl
    · exact absurd (emailCore_mem_at hc) h
  have h2 : emailCore cs.dropLast = false := by
    cases hc : emailCore cs.dropLast
    · rfl
    · exact absurd ((List.dropLast_sublist cs).subset (emailCore_mem_at hc)) h
  simp [pyEmailMatch, h1, h2]

theorem pyEmailMatch_false_of_no_dot {cs : List Char} (h : '.' ∉ cs) :
    pyEmailMatch cs = false := by
  have h1 : emailCore cs = false := by
    cases hc : emailCore cs
    · rfl
    · exact absurd (emailCore_mem_dot hc) h
  have h2 : emailCore cs.dropLast = false := by
    cases hc : emailCore cs.dropLast
    · rfl
    · exact absurd ((List.dropLast_sublist cs).subset (emailCore_mem_dot hc)) h
  simp [pyEmailMatch, h1, h2]

/-- A string whose final dot is followed by exactly one letter has a
length-1 TLD; the core regex rejects it. -/
theorem emailCore_false_short_tld (u : List Char) (c : Char)
    (hc : isAsciiLetter c = true) : emailCore (u ++ ['.', c]) = false := by
  cases h : emailCore (u ++ ['.', c])
  · rfl
  · exfalso
    obtain ⟨t, hsuf, hlen, halpha⟩ := emailCore_tld h
    have hsuf2 : ['.', c] <:+ u ++ ['.', c] := ⟨u, rfl⟩
    have hnest : ['.', c] <:+ '.' :: t :=
      suffix_of_suffix_of_length_le hsuf2 hsuf (by simp; omega)
    obtain ⟨w, hw⟩ := hnest
    cases w with
    | nil =>
        simp only [List.nil_append, List.cons.injEq] at hw
        have : t.length = 1 := by rw [← hw.2]; rfl
        omega
    | cons x w' =>
        have ht : t = w' ++ ['.', c] := by
          have := hw
          simp only [List.cons_append, List.cons.injEq] at this
          exact this.2.symm
        have hdotmem : '.' ∈ t := by
          rw [ht]
          exact List.mem_append.2 (Or.inr (List.mem_cons_self _ _))
        have := List.all_eq_true.1 halpha '.' hdotmem
        simp [isAsciiLetter] at this

end Sender

/-- Claim C3: the email validator accepts every string of the shape
`local@domain.tld` (local-part a nonempty run of `[A-Za-z0-9._%+-]`,
domain a nonempty run of `[A-Za-z0-9.-]`, TLD two or more ASCII letters),
and rejects every string with no `@`, every string with no dot (hence no
TLD), and every string whose final dot is followed by a single letter
(TLD of length 1). -/
theorem C3_email_validator :
    (∀ l d t : String, l.data ≠ [] → l.data.all Sender.isLocalChar = true →
        d.data ≠ [] → d.data.all Sender.isDomainChar = true →
        2 ≤ t.data.length → t.data.all Sender.isAsciiLetter = true →
        Utils.validate_email (l ++ "@" ++ d ++ "." ++ t) = true)
    ∧ (∀ s : String, '@' ∉ s.data → Utils.validate_email s = false)
    ∧ (∀ s : String, '.' ∉ s.data → Utils.validate_email s = false)
    ∧ (∀ (u : String) (c : Char), Sender.isAsciiLetter c = true →
        Utils.validate_email (u ++ "." ++ String.singleton c) = false) := by
  refine ⟨?_, ?_, ?_, ?_⟩
  · intro l d t hl hl2 hd hd2 ht ht2
    have hdata : (l ++ "@" ++ d ++ "." ++ t).data
        = l.data ++ '@' :: (d.data ++ '.' :: t.data) := by
      have ha : ("@" : String).data = ['@'] := rfl
      have hb : ("." : String).data = ['.'] := rfl
      simp [String.data_append, ha, hb]
    unfold Utils.validate_email
    rw [hdata]
    have hne : (l.data ++ '@' :: (d.data ++ '.' :: t.data)).isEmpty = false := by
      cases hld : l.data with
      | nil => exact absurd hld hl
      | cons a as => simp
    rw [hne]
    simp only [Bool.false_eq_true, if_false]
    unfold Sender.pyEmailMatch
    rw [Sender.emailCore_pos l.data d.data t.data hl hl2 hd hd2 ht ht2]
    simp
  · intro s h
    unfold Utils.validate_email
    split
    · rfl
    · exact Sender.pyEmailMatch_false_of_no_at h
  · intro s h
    unfold Utils.validate_email
    split
    · rfl
    · exact Sender.pyEmailMatch_false_of_no_dot h
  · intro u c hc
    have hdata : (u ++ "." ++ String.singleton c).data = u.data ++ ['.', c] := by
      have hb : ("." : String).data = ['.'] := rfl
      have hs : (String.singleton c).data = [c] := rfl
      simp [String.data_append, hb, hs]
    unfold Utils.validate_email
    rw [hdata]
    have h1 : Sender.emailCore (u.data ++ ['.', c]) = false :=
      Sender.emailCore_false_short_tld u.data c hc
    have hlast : (u.data ++ ['.', c]).getLast? = some c := by
      have : u.data ++ ['.', c] = (u.data ++ ['.']) ++ [c] := by simp
      rw [this, List.getLast?_concat]
    have hnl : c ≠ '\n' := by
      intro hcc
      rw [hcc] at hc
      simp [Sender.isAsciiLetter] at hc
    have h2 : ((u.data ++ ['.', c]).getLast? == some '\n') = false := by
      rw [hlast]
      simp [hnl]
    split
    · rfl
    · unfold Sender.pyEmailMatch
      rw [h1, h2]
      simp

/-- Witness for C3 at concrete inputs. -/
theorem C3_email_validator_witness :
    Utils.validate_email ("user" ++ "@" ++ "mail" ++ "." ++ "com") = true
    ∧ Utils.validate_email "usermail.com" = false
    ∧ Utils.validate_email "user@mailcom" = false
    ∧ Utils.validate_email ("user@mail" ++ "." ++ String.singleton 'c') = false :=
  ⟨C3_email_validator.1 "user" "mail" "com" (by decide) (by decide) (by decide)
      (by decide) (by decide) (by decide),
   C3_email_validator.2.1 "usermail.com" (by decide),
   C3_email_validator.2.2.1 "user@mailcom" (by decide),
   C3_email_validator.2.2.2 "user@mail" 'c' (by decide)⟩

namespace Sender

/-! ## String utilities shared by the ingestion pipeline -/

/-- Bool test: `needle` is a leading block of `hay`. -/
def startsWithChars : List Char → List Char → Bool
  | [], _ => true
  | _ :: _, [] => false
  | a :: as, b :: bs => a == b && startsWithChars as bs

/-- Python `needle in hay` on strings: contiguous substring occurrence. -/
def hasSubChars (needle : List Char) : List Char → Bool
  | [] => startsWithChars needle []
  | c :: cs => startsWithChars needle (c :: cs) || hasSubChars needle cs

/-- Python `str.lower` restricted to the characters this program can see:
ASCII `A`-`Z` and the Latin-1 uppercase letters `À`-`Þ` (except `×`) map
down by 32 code points, exactly as Python does on those ranges; all other
characters map to themselves. -/
def pyLowerChar (c : Char) : Char :=
  if 65 ≤ c.toNat && c.toNat ≤ 90 then Char.ofNat (c.toNat + 32)
  else if 192 ≤ c.toNat && c.toNat ≤ 222 && c.toNat != 215 then Char.ofNat (c.toNat + 32)
  else c

def pyLower (cs : List Char) : List Char := cs.map pyLowerChar

/-- Python whitespace stripped by `str.strip` / pandas `str.strip`. -/
def isPySpace (c : Char) : Bool :=
  c == ' ' || c == '\t' || c == '\n' || c == '\r' || c == '\x0b' || c == '\x0c'

def pyStrip (cs : List Char) : List Char :=
  ((cs.dropWhile isPySpace).reverse.dropWhile isPySpace).reverse

/-- Substring test on strings, `contains hay needle` = Python
`needle in hay`. -/
def containsSub (hay needle : String) : Bool := hasSubChars needle.data hay.data

end Sender

namespace Utils

open Sender

/-- The column-name normalization of `utils.process_uploaded_file`
(lines 124-143): strip the header, lowercase it, then walk the
`if`/`elif` chain of substring tests; a header matching no synonym keeps
its stripped name. -/
def renameColumn (col : String) : String :=
  let stripped : String := ⟨pyStrip col.data⟩
  let low : String := ⟨pyLower stripped.data⟩
  if containsSub low "email" || containsSub low "mail" then "email"
  else if containsSub low "nom" || containsSub low "name" then "nom"
  else if containsSub low "prénom" || containsSub low "prenom"
      || containsSub low "firstname" then "prenom"
  else if containsSub low "entreprise" || containsSub low "company"
      || containsSub low "societe" then "entreprise"
  else stripped

end Utils

/-- Claim C1: FAILS on the code.  The header row `Email, Nom, Prénom` is
renamed to `email, nom, nom`: the `elif` branch for `nom`/`name` is
tested before the `prénom` branch, and both `prénom` and `prenom`
contain `nom` (and `firstname` contains `name`) as substrings, so the
`prenom` branch is unreachable and the `Prénom` header collides with
`Nom` instead of producing the canonical key `prenom`. -/
theorem C1_prenom_header_collides_with_nom :
    ["Email", "Nom", "Prénom"].map Utils.renameColumn = ["email", "nom", "nom"]
    ∧ Utils.renameColumn "Prénom" ≠ "prenom"
    ∧ Utils.renameColumn "prenom" = "nom"
    ∧ Utils.renameColumn "firstname" = "nom" := by
  refine ⟨?_, ?_, ?_, ?_⟩ <;> decide

namespace Utils

/-! ## Ingestion post-processing (`process_uploaded_file`, lines 145-169) -/

/-- One parsed table row: its email cell plus the remaining cells. -/
structure CRow where
  email : String
  fields : List (String × String)
deriving DecidableEq, Repr

/-- Embedding of `df.drop_duplicates(subset=['email'], keep='first')`: walk the rows in
order keeping a row iff its email was not seen before. -/
def dropDupAux (seen : List String) : List CRow → List CRow
  | [] => []
  | r :: rs =>
    if seen.contains r.email then dropDupAux seen rs
    else r :: dropDupAux (r.email :: seen) rs

def drop_duplicates (rows : List CRow) : List CRow := dropDupAux [] rows

/-- Rows surviving the empty-email drop (`dropna` + strip-nonempty test)
and the `validate_email` filter. -/
def validRows (rows : List CRow) : List CRow :=
  (rows.filter (fun r => decide (Sender.pyStrip r.email.data ≠ []))).filter
    (fun r => validate_email r.email)

/-- The batch finally returned by ingestion. -/
def ingestedRows (rows : List CRow) : List CRow := drop_duplicates (validRows rows)

/-- The count `duplicate_count = initial_count - len(df)` computed at lines 162-164. -/
def duplicate_count (rows : List CRow) : Nat :=
  (validRows rows).length - (ingestedRows rows).length

theorem mem_map_email_dropDupAux (rows : List CRow) :
    ∀ (seen : List String) (e : String),
      e ∈ (dropDupAux seen rows).map CRow.email
        ↔ (e ∈ rows.map CRow.email ∧ e ∉ seen) := by
  induction rows with
  | nil => intro seen e; simp [dropDupAux]
  | cons r rs ih =>
    intro seen e
    by_cases hm : r.email ∈ seen
    · have hc : seen.contains r.email = true := List.elem_iff.2 hm
      simp only [dropDupAux, hc, if_true, List.map_cons, List.mem_cons]
      rw [ih seen e]
      constructor
      · rintro ⟨h1, h2⟩
        exact ⟨Or.inr h1, h2⟩
      · rintro ⟨h1, h2⟩
        rcases h1 with h1 | h1
        · exact absurd (h1 ▸ hm) h2
        · exact ⟨h1, h2⟩
    · have hc : seen.contains r.email = false := by
        cases h : seen.contains r.email
        · rfl
        · exact absurd (List.elem_iff.1 h) hm
      simp only [dropDupAux, hc, Bool.false_eq_true, if_false, List.map_cons,
        List.mem_cons]
      rw [ih (r.email :: seen) e]
      constructor
      · rintro (h1 | ⟨h1, h2⟩)
        · exact ⟨Or.inl h1, h1 ▸ hm⟩
        · exact ⟨Or.inr h1, fun hs => h2 (List.mem_cons_of_mem _ hs)⟩
      · rintro ⟨h1 | h1, h2⟩
        · exact Or.inl h1
        · by_cases he : e = r.email
          · exact Or.inl he
          · exact Or.inr ⟨h1, fun hs => he (by
              rcases List.mem_cons.1 hs with h | h
              · exact h
              · exact absurd h h2)⟩

theorem nodup_map_email_dropDupAux (rows : List CRow) :
    ∀ seen : List String, ((dropDupAux seen rows).map CRow.email).Nodup := by
  induction rows with
  | nil => intro seen; simp [dropDupAux]
  | cons r rs ih =>
    intro seen
    by_cases hm : r.email ∈ seen
    · have hc : seen.contains r.email = true := List.elem_iff.2 hm
      simp only [dropDupAux, hc, if_true]
      exact ih seen
    · have hc : seen.contains r.email = false := by
        cases h : seen.contains r.email
        · rfl
        · exact absurd (List.elem_iff.1 h) hm
      simp only [dropDupAux, hc, Bool.false_eq_true, if_false, List.map_cons]
      refine List.Nodup.cons ?_ (ih (r.email :: seen))
      intro hmem
      have := (mem_map_email_dropDupAux rs (r.email :: seen) r.email).1 hmem
      exact this.2 (List.mem_cons_self _ _)

theorem find?_dropDupAux (rows : List CRow) :
    ∀ (seen : List String) (e : String), e ∉ seen →
      (dropDupAux seen rows).find? (fun r => r.email == e)
        = rows.find? (fun r => r.email == e) := by
  induction rows with
  | nil => intro seen e _; rfl
  | cons r rs ih =>
    intro seen e he
    by_cases hre : r.email = e
    · have hb : (r.email == e) = true := beq_iff_eq.2 hre
      have hm : r.email ∉ seen := hre ▸ he
      have hc : seen.contains r.email = false := by
        cases h : seen.contains r.email
        · rfl
        · exact absurd (List.elem_iff.1 h) hm
      simp only [dropDupAux, hc, Bool.false_eq_true, if_false]
      simp only [List.find?_cons, hb]
    · have hb : (r.email == e) = false := by
        cases h : r.email == e
        · rfl
        · exact absurd (beq_iff_eq.1 h) hre
      by_cases hm : r.email ∈ seen
      · have hc : seen.contains r.email = true := List.elem_iff.2 hm
        simp only [dropDupAux, hc, if_true]
        rw [ih seen e he]
        simp only [List.find?_cons, hb]
      · have hc : seen.contains r.email = false := by
          cases h : seen.contains r.email
          · rfl
          · exact absurd (List.elem_iff.1 h) hm
        simp only [dropDupAux, hc, Bool.false_eq_true, if_false]
        simp only [List.find?_cons, hb]
        refine ih (r.email :: seen) e ?_
        intro hs
        rcases List.mem_cons.1 hs with h | h
        · exact hre h.symm
        · exact he h

theorem length_dropDupAux_le (rows : List CRow) :
    ∀ seen : List String, (dropDupAux seen rows).length ≤ rows.length := by
  induction rows with
  | nil => intro seen; simp [dropDupAux]
  | cons r rs ih =>
    intro seen
    by_cases hm : seen.contains r.email = true
    · simp only [dropDupAux, hm, if_true, List.length_cons]
      exact Nat.le_succ_of_le (ih seen)
    · have hc : seen.contains r.email = false := by
        cases h : seen.contains r.email
        · rfl
        · exact absurd h hm
      simp only [dropDupAux, hc, Bool.false_eq_true, if_false, List.length_cons]
      exact Nat.succ_le_succ (ih _)

end Utils

/-- Claim C6: after ingestion the batch has pairwise-distinct email values
(case-sensitive); every address that survived validation keeps exactly one
record, namely its first occurrence in row order (`find?` over the
deduplicated batch agrees with `find?` over the pre-dedup rows); and the
reported duplicate count equals the number of rows dropped by the
dedup step. -/
theorem C6_dedup_first_occurrence (rows : List Utils.CRow) :
    ((Utils.ingestedRows rows).map Utils.CRow.email).Nodup
    ∧ (∀ e, e ∈ (Utils.ingestedRows rows).map Utils.CRow.email
        ↔ e ∈ (Utils.validRows rows).map Utils.CRow.email)
    ∧ (∀ e, e ∈ (Utils.validRows rows).map Utils.CRow.email →
        ((Utils.ingestedRows rows).map Utils.CRow.email).count e = 1)
    ∧ (∀ e, (Utils.ingestedRows rows).find? (fun r => r.email == e)
        = (Utils.validRows rows).find? (fun r => r.email == e))
    ∧ (Utils.ingestedRows rows).length + Utils.duplicate_count rows
        = (Utils.validRows rows).length := by
  simp only [Utils.duplicate_count, Utils.ingestedRows, Utils.drop_duplicates]
  have hnodup := Utils.nodup_map_email_dropDupAux (Utils.validRows rows) []
  have hmem := fun e =>
    (Utils.mem_map_email_dropDupAux (Utils.validRows rows) [] e)
  refine ⟨hnodup, ?_, ?_, ?_, ?_⟩
  · intro e
    rw [hmem e]
    simp
  · intro e he
    refine List.count_eq_one_of_mem hnodup ?_
    rw [hmem e]
    simp [he]
  · intro e
    exact Utils.find?_dropDupAux (Utils.validRows rows) [] e (List.not_mem_nil e)
  · have hle := Utils.length_dropDupAux_le (Utils.validRows rows) []
    omega

/-- Witness for C6: a batch with one duplicated pair keeps the first
occurrence only and reports one duplicate. -/
theorem C6_dedup_first_occurrence_witness :
    ("a@x.com" ∈ (Utils.validRows
        [⟨"a@x.com", [("nom", "Un")]⟩, ⟨"b@y.org", []⟩, ⟨"a@x.com", [("nom", "Deux")]⟩]).map
        Utils.CRow.email)
    ∧ ((Utils.ingestedRows
        [⟨"a@x.com", [("nom", "Un")]⟩, ⟨"b@y.org", []⟩, ⟨"a@x.com", [("nom", "Deux")]⟩]).map
        Utils.CRow.email).count "a@x.com" = 1
    ∧ Utils.duplicate_count
        [⟨"a@x.com", [("nom", "Un")]⟩, ⟨"b@y.org", []⟩, ⟨"a@x.com", [("nom", "Deux")]⟩] = 1 :=
  ⟨by decide,
   (C6_dedup_first_occurrence
      [⟨"a@x.com", [("nom", "Un")]⟩, ⟨"b@y.org", []⟩, ⟨"a@x.com", [("nom", "Deux")]⟩]).2.2.1
      "a@x.com" (by decide),
   by decide⟩

namespace Sender

/-! ## Template engine (`prepare_email_content` of both backends) -/

/-- A pandas cell as the template engine sees it: a string, or a
NaN-like missing value (`pd.notna` is false exactly on `nan`). -/
inductive PyVal where
  | str (s : String)
  | nan
deriving DecidableEq, Repr

/-- Coercion `str(value) if pd.notna(value) else ""`. -/
def coerceVal : PyVal → String
  | .str s => s
  | .nan => ""

/-- Python dict assignment `d[k] = v`: overwrite in place if the key is
present, else append, preserving insertion order. -/
def dictInsert (d : List (String × String)) (k v : String) : List (String × String) :=
  if d.any (fun kv => kv.1 == k) then
    d.map (fun kv => if kv.1 == k then (k, v) else kv)
  else d ++ [(k, v)]

/-- Dict lookup (first entry wins; entries built by `dictInsert` have
unique keys). -/
def dictFind (d : List (String × String)) (k : String) : Option String :=
  (d.find? (fun kv => kv.1 == k)).map Prod.snd

/-- The `for key, value in contact.items(): replacements[key] = ...` loop. -/
def buildContactDict (contact : List (String × PyVal)) : List (String × String) :=
  contact.foldl (fun d kv => dictInsert d kv.1 (coerceVal kv.2)) []

/-- The literal token `\x7b\x7bkey\x7d\x7d` substituted by the engine. -/
def tokenOf (k : String) : String := "\x7b\x7b" ++ k ++ "\x7d\x7d"

/-- Python `str.replace`, left-to-right and non-overlapping, with
explicit fuel (one unit per consumed character suffices for a nonempty
pattern). -/
def replaceFuel (pat rep : List Char) : Nat → List Char → List Char
  | 0, cs => cs
  | _ + 1, [] => []
  | n + 1, c :: cs =>
    if startsWithChars pat (c :: cs) then
      rep ++ replaceFuel pat rep n (List.drop pat.length (c :: cs))
    else c :: replaceFuel pat rep n cs

/-- Python `s.replace(pat, rep)`.  The empty-pattern case is never produced by
this program (every pattern is a brace-delimited token) and is mapped to
the identity. -/
def pyReplace (s pat rep : String) : String :=
  if pat.data.isEmpty then s
  else ⟨replaceFuel pat.data rep.data s.data.length s.data⟩

/-- The `for key, value in replacements.items(): out = out.replace(...)`
loop applied to one template string. -/
def renderTemplate (repl : List (String × String)) (t : String) : String :=
  repl.foldl (fun acc kv => pyReplace acc (tokenOf kv.1) kv.2) t

/-- Brace characters, written by code point to keep them out of
string literals. -/
def lbrace : Char := Char.ofNat 123

def rbrace : Char := Char.ofNat 125

def braceFreeChar (c : Char) : Bool := !(c == lbrace || c == rbrace)

def braceFree (cs : List Char) : Bool := cs.all braceFreeChar

/-- The shape of `tokenOf` at the character-list level. -/
def tokList (k : List Char) : List Char :=
  lbrace :: lbrace :: (k ++ [rbrace, rbrace])

theorem tokenOf_data (k : String) : (tokenOf k).data = tokList k.data := by
  have h1 : ("\x7b\x7b" : String).data = [lbrace, lbrace] := rfl
  have h2 : ("\x7d\x7d" : String).data = [rbrace, rbrace] := rfl
  simp [tokenOf, tokList, String.data_append, h1, h2]
  exact ⟨by decide, by decide⟩

theorem startsWithChars_iff (n : List Char) :
    ∀ h : List Char, startsWithChars n h = true ↔ ∃ t, h = n ++ t := by
  induction n with
  | nil => intro h; simp [startsWithChars]
  | cons a as ih =>
    intro h
    cases h with
    | nil =>
      simp only [startsWithChars]
      constructor
      · intro hfalse; cases hfalse
      · rintro ⟨t, ht⟩; cases ht
    | cons b bs =>
      simp only [startsWithChars, Bool.and_eq_true, beq_iff_eq]
      rw [ih bs]
      constructor
      · rintro ⟨rfl, t, rfl⟩
        exact ⟨t, rfl⟩
      · rintro ⟨t, ht⟩
        simp only [List.cons_append, List.cons.injEq] at ht
        exact ⟨ht.1.symm, t, ht.2⟩

theorem hasSubChars_iff (n : List Char) :
    ∀ h : List Char, hasSubChars n h = true ↔ ∃ pre post, h = pre ++ n ++ post := by
  intro h
  induction h with
  | nil =>
    simp only [hasSubChars]
    rw [startsWithChars_iff]
    constructor
    · rintro ⟨t, ht⟩
      exact ⟨[], t, by simpa using ht⟩
    · rintro ⟨pre, post, hp⟩
      have : pre = [] ∧ n ++ post = [] := by
        cases pre with
        | nil => simpa using hp.symm
        | cons x xs => simp at hp
      exact ⟨post, by simpa using this.2.symm⟩
  | cons c cs ih =>
    simp only [hasSubChars, Bool.or_eq_true]
    rw [startsWithChars_iff, ih]
    constructor
    · rintro (⟨t, ht⟩ | ⟨pre, post, hp⟩)
      · exact ⟨[], t, by simpa using ht⟩
      · exact ⟨c :: pre, post, by simp [hp]⟩
    · rintro ⟨pre, post, hp⟩
      cases pre with
      | nil =>
        exact Or.inl ⟨post, by simpa using hp⟩
      | cons x pre' =>
        simp only [List.cons_append, List.cons.injEq] at hp
        exact Or.inr ⟨pre', post, hp.2⟩

theorem replaceFuel_of_no_occurrence (pat rep : List Char) :
    ∀ (n : Nat) (cs : List Char), hasSubChars pat cs = false →
      replaceFuel pat rep n cs = cs := by
  intro n
  induction n with
  | zero => intro cs _; rfl
  | succ m ih =>
    intro cs hsub
    cases cs with
    | nil => rfl
    | cons c cs' =>
      simp only [hasSubChars, Bool.or_eq_false_iff] at hsub
      simp only [replaceFuel, hsub.1, Bool.false_eq_true, if_false]
      rw [ih cs' hsub.2]

theorem pyReplace_of_no_occurrence (s pat rep : String)
    (h : hasSubChars pat.data s.data = false) : pyReplace s pat rep = s := by
  unfold pyReplace
  split
  · rfl
  · rw [replaceFuel_of_no_occurrence pat.data rep.data s.data.length s.data h]

/-- Right-cancellation step for the token argument: a brace-free word
followed by the closing braces determines the word. -/
theorem braceFree_append_close (k : List Char) :
    ∀ k' post : List Char, braceFree k = true → braceFree k' = true →
      k ++ [rbrace, rbrace] = k' ++ ([rbrace, rbrace] ++ post) →
      k = k' ∧ post = [] := by
  induction k with
  | nil =>
    intro k' post _ _ heq
    have hlen := congrArg List.length heq
    simp only [List.length_append, List.length_cons, List.length_nil,
      List.nil_append] at hlen
    have hk' : k' = [] := List.eq_nil_of_length_eq_zero (by omega)
    have hpost : post = [] := List.eq_nil_of_length_eq_zero (by omega)
    exact ⟨hk'.symm, hpost⟩
  | cons c k₁ ih =>
    intro k' post hbf hbf' heq
    cases k' with
    | nil =>
      exfalso
      simp only [List.nil_append, List.cons_append, List.cons.injEq] at heq
      have hc : braceFreeChar c = true := by
        have := List.all_eq_true.1 hbf c (List.mem_cons_self _ _)
        exact this
      rw [heq.1] at hc
      simp [braceFreeChar] at hc
    | cons c' k₁' =>
      simp only [List.cons_append, List.cons.injEq] at heq
      have hbf1 : braceFree k₁ = true :=
        List.all_eq_true.2 fun x hx => List.all_eq_true.1 hbf x (List.mem_cons_of_mem _ hx)
      have hbf1' : braceFree k₁' = true :=
        List.all_eq_true.2 fun x hx => List.all_eq_true.1 hbf' x (List.mem_cons_of_mem _ hx)
      obtain ⟨hk, hp⟩ := ih k₁' post hbf1 hbf1' heq.2
      exact ⟨by rw [heq.1, hk], hp⟩

/-- Distinct brace-free keys produce tokens that do not occur in each
other: the token of `k'` is not a substring of the token of `k`. -/
theorem token_not_sub {k k' : List Char} (hk : braceFree k = true)
    (hk' : braceFree k' = true) (hne : k ≠ k') :
    hasSubChars (tokList k') (tokList k) = false := by
  cases hsub : hasSubChars (tokList k') (tokList k)
  · rfl
  · exfalso
    obtain ⟨pre, post, heq⟩ := (hasSubChars_iff _ _).1 hsub
    have hlb : braceFreeChar lbrace = false := by simp [braceFreeChar]
    have hrb_ne : rbrace ≠ lbrace := by decide
    cases pre with
    | nil =>
      simp only [tokList, List.nil_append, List.cons_append, List.append_assoc,
        List.cons.injEq] at heq
      obtain ⟨hkk, hpp⟩ := braceFree_append_close k k' post hk hk' heq.2.2
      exact hne hkk
    | cons x pre' =>
      cases pre' with
      | nil =>
        simp only [tokList, List.cons_append, List.nil_append, List.cons.injEq] at heq
        -- `heq.2.2 : k ++ [rbrace, rbrace] = lbrace :: (k' ++ ...)`
        have h3 := heq.2.2
        cases hkc : k with
        | nil =>
          rw [hkc] at h3
          simp only [List.nil_append, List.cons.injEq] at h3
          exact hrb_ne h3.1
        | cons c k₁ =>
          rw [hkc] at h3
          simp only [List.cons_append, List.cons.injEq] at h3
          have hc : braceFreeChar c = true := by
            have := List.all_eq_true.1 hk c (by rw [hkc]; exact List.mem_cons_self _ _)
            exact this
          rw [h3.1] at hc
          simp [braceFreeChar] at hc
      | cons y pre'' =>
        simp only [tokList, List.cons_append, List.cons.injEq] at heq
        have h3 := heq.2.2
        have hmem : lbrace ∈ k ++ [rbrace, rbrace] := by
          rw [h3]
          simp
        rcases List.mem_append.1 hmem with hmk | hmc
        · have := List.all_eq_true.1 hk lbrace hmk
          rw [hlb] at this
          cases this
        · rcases List.mem_cons.1 hmc with h | h
          · exact hrb_ne h.symm
          · rcases List.mem_cons.1 h with h | h
            · exact hrb_ne h.symm
            · cases h

/-- Rendering the bare token of an absent key leaves it verbatim. -/
theorem renderTemplate_absent (repl : List (String × String)) (k : String)
    (hk : braceFree k.data = true)
    (h : ∀ kv ∈ repl, braceFree kv.1.data = true ∧ kv.1 ≠ k) :
    renderTemplate repl (tokenOf k) = tokenOf k := by
  induction repl with
  | nil => rfl
  | cons kv rest ih =>
    have hkv := h kv (List.mem_cons_self _ _)
    have hstep : pyReplace (tokenOf k) (tokenOf kv.1) kv.2 = tokenOf k := by
      refine pyReplace_of_no_occurrence _ _ _ ?_
      rw [tokenOf_data, tokenOf_data]
      refine token_not_sub hk hkv.1 ?_
      intro hd
      exact hkv.2 (String.ext hd.symm)
    show renderTemplate rest (pyReplace (tokenOf k) (tokenOf kv.1) kv.2) = tokenOf k
    rw [hstep]
    exact ih fun kv' hkv' => h kv' (List.mem_cons_of_mem _ hkv')

end Sender

namespace Sender

/-- Overwriting key `k0` does not disturb lookups of other keys. -/
theorem find?_map_overwrite_ne (k0 : String) (v : String) (k : String) (hk : k ≠ k0) :
    ∀ d : List (String × String),
      (d.map (fun kv => if kv.1 == k0 then (k0, v) else kv)).find?
          (fun kv => kv.1 == k)
        = d.find? (fun kv => kv.1 == k) := by
  intro d
  induction d with
  | nil => rfl
  | cons kv rest ih =>
    by_cases h1 : kv.1 = k0
    · have hb : (kv.1 == k0) = true := beq_iff_eq.2 h1
      have hh : ((k0 : String) == k) = false := by
        cases h : (k0 : String) == k
        · rfl
        · exact absurd (beq_iff_eq.1 h).symm hk
      have hh2 : (kv.1 == k) = false := by
        cases h : kv.1 == k
        · rfl
        · exact absurd (h1 ▸ beq_iff_eq.1 h).symm hk
      simp only [List.map_cons, hb, if_true, List.find?_cons, hh, hh2]
      exact ih
    · have hb : (kv.1 == k0) = false := by
        cases h : kv.1 == k0
        · rfl
        · exact absurd (beq_iff_eq.1 h) h1
      simp only [List.map_cons, hb, Bool.false_eq_true, if_false, List.find?_cons]
      cases h : kv.1 == k
      · exact ih
      · rfl

/-- Finding the overwritten key in the rewritten dict yields the new
value, provided the key was present. -/
theorem find?_map_overwrite_pos (k0 : String) (v : String) :
    ∀ d : List (String × String), d.any (fun kv => kv.1 == k0) = true →
      ((d.map (fun kv => if kv.1 == k0 then (k0, v) else kv)).find?
          (fun kv => kv.1 == k0)).map Prod.snd = some v := by
  intro d
  induction d with
  | nil => intro h; cases h
  | cons kv rest ih =>
    intro hany
    by_cases h1 : kv.1 = k0
    · have hb : (kv.1 == k0) = true := beq_iff_eq.2 h1
      have hb0 : ((k0 : String) == k0) = true := beq_iff_eq.2 rfl
      simp only [List.map_cons, hb, if_true, List.find?_cons, hb0]
      rfl
    · have hb : (kv.1 == k0) = false := by
        cases h : kv.1 == k0
        · rfl
        · exact absurd (beq_iff_eq.1 h) h1
      have hrest : rest.any (fun kv => kv.1 == k0) = true := by
        rw [List.any_cons, hb] at hany
        simpa using hany
      simp only [List.map_cons, hb, Bool.false_eq_true, if_false, List.find?_cons]
      exact ih hrest

/-- Python dict semantics of `dictInsert` seen through lookup. -/
theorem dictFind_dictInsert (d : List (String × String)) (k0 v k : String) :
    dictFind (dictInsert d k0 v) k = if k = k0 then some v else dictFind d k := by
  by_cases hany : d.any (fun kv => kv.1 == k0) = true
  · have hins : dictInsert d k0 v
        = d.map (fun kv => if kv.1 == k0 then (k0, v) else kv) := by
      unfold dictInsert
      rw [hany]
      simp
    rw [hins]
    by_cases hk : k = k0
    · subst hk
      unfold dictFind
      rw [if_pos rfl]
      exact find?_map_overwrite_pos k v d hany
    · unfold dictFind
      rw [find?_map_overwrite_ne k0 v k hk d, if_neg hk]
  · have hanyf : d.any (fun kv => kv.1 == k0) = false := by
      cases h : d.any (fun kv => kv.1 == k0)
      · rfl
      · exact absurd h hany
    have hins : dictInsert d k0 v = d ++ [(k0, v)] := by
      unfold dictInsert
      rw [hanyf]
      simp
    rw [hins]
    unfold dictFind
    rw [List.find?_append]
    by_cases hk : k = k0
    · subst hk
      have hnone : d.find? (fun kv => kv.1 == k) = none := by
        refine List.find?_eq_none.2 ?_
        intro x hx hpx
        have := List.any_eq_false.1 hanyf x hx
        exact this hpx
      have hb0 : ((k : String) == k) = true := beq_iff_eq.2 rfl
      rw [hnone, if_pos rfl]
      simp [List.find?_cons, hb0]
    · cases hf : d.find? (fun kv => kv.1 == k) with
      | some x => simp [hf, hk]
      | none =>
        have hb0 : ((k0 : String) == k) = false := by
          cases h : (k0 : String) == k
          · rfl
          · exact absurd (beq_iff_eq.1 h).symm hk
        simp [hf, hk, List.find?_cons, hb0]

/-- Lookup in the dict built from the contact items: with pairwise
distinct contact keys (a Python dict), the first/only occurrence wins. -/
theorem foldl_buildDict_lookup (contact : List (String × PyVal)) :
    ∀ (d : List (String × String)) (k : String), (contact.map Prod.fst).Nodup →
      dictFind (contact.foldl (fun d kv => dictInsert d kv.1 (coerceVal kv.2)) d) k
        = match contact.find? (fun kv => kv.1 == k) with
          | some kv => some (coerceVal kv.2)
          | none => dictFind d k := by
  induction contact with
  | nil => intro d k _; rfl
  | cons c rest ih =>
    intro d k hnd
    simp only [List.map_cons, List.nodup_cons] at hnd
    by_cases hck : c.1 = k
    · have hb : (c.1 == k) = true := beq_iff_eq.2 hck
      have hrest : rest.find? (fun kv => kv.1 == k) = none := by
        refine List.find?_eq_none.2 ?_
        intro x hx hpx
        have hxk : x.1 = k := beq_iff_eq.1 hpx
        have hxm : x.1 ∈ rest.map Prod.fst := List.mem_map_of_mem Prod.fst hx
        rw [hxk, ← hck] at hxm
        exact hnd.1 hxm
      simp only [List.foldl_cons, List.find?_cons, hb]
      rw [ih (dictInsert d c.1 (coerceVal c.2)) k hnd.2, hrest]
      rw [dictFind_dictInsert]
      simp [hck]
    · have hb : (c.1 == k) = false := by
        cases h : c.1 == k
        · rfl
        · exact absurd (beq_iff_eq.1 h) hck
      simp only [List.foldl_cons, List.find?_cons, hb]
      rw [ih (dictInsert d c.1 (coerceVal c.2)) k hnd.2]
      cases hf : rest.find? (fun kv => kv.1 == k)
      · rw [dictFind_dictInsert]
        have : ¬ k = c.1 := fun hh => hck hh.symm
        simp [this]
      · rfl

/-- Lookup `dictFind` over the contact dict equals first-occurrence lookup in the
contact list itself. -/
theorem buildContactDict_lookup (contact : List (String × PyVal)) (k : String)
    (hnd : (contact.map Prod.fst).Nodup) :
    dictFind (buildContactDict contact) k
      = (contact.find? (fun kv => kv.1 == k)).map (fun kv => coerceVal kv.2) := by
  have h := foldl_buildDict_lookup contact [] k hnd
  unfold buildContactDict
  rw [h]
  cases hf : contact.find? (fun kv => kv.1 == k)
  · rfl
  · rfl

/-- Keys after a `dictInsert` are the old keys plus possibly the new one. -/
theorem mem_keys_dictInsert {d : List (String × String)} {k0 v kk : String}
    (h : kk ∈ (dictInsert d k0 v).map Prod.fst) :
    kk ∈ d.map Prod.fst ∨ kk = k0 := by
  unfold dictInsert at h
  split at h
  · obtain ⟨kv, hkv, heq⟩ := List.mem_map.1 h
    obtain ⟨kv', hkv', heq'⟩ := List.mem_map.1 hkv
    by_cases hb : kv'.1 = k0
    · right
      rw [← heq, ← heq']
      simp [beq_iff_eq.2 hb]
    · left
      have hbf : (kv'.1 == k0) = false := by
        cases hx : kv'.1 == k0
        · rfl
        · exact absurd (beq_iff_eq.1 hx) hb
      rw [← heq, ← heq', hbf]
      simp only [Bool.false_eq_true, if_false]
      exact List.mem_map_of_mem Prod.fst hkv'
  · rw [List.map_append] at h
    rcases List.mem_append.1 h with h | h
    · exact Or.inl h
    · right
      simpa using h

/-- Keys of the contact dict come from the contact items. -/
theorem mem_keys_buildContactDict {contact : List (String × PyVal)} {kk : String}
    (h : kk ∈ (buildContactDict contact).map Prod.fst) :
    kk ∈ contact.map Prod.fst := by
  suffices haux : ∀ (c : List (String × PyVal)) (d : List (String × String)),
      kk ∈ (c.foldl (fun d kv => dictInsert d kv.1 (coerceVal kv.2)) d).map Prod.fst →
      kk ∈ d.map Prod.fst ∨ kk ∈ c.map Prod.fst by
    rcases haux contact [] h with h | h
    · cases h
    · exact h
  intro c
  induction c with
  | nil => intro d hd; exact Or.inl hd
  | cons x rest ih =>
    intro d hd
    simp only [List.foldl_cons] at hd
    rcases ih (dictInsert d x.1 (coerceVal x.2)) hd with h1 | h1
    · rcases mem_keys_dictInsert h1 with h2 | h2
      · exact Or.inl h2
      · right
        rw [h2]
        simp
    · right
      simp [h1]

end Sender

namespace EmailSender

open Sender

/-- Embedding of the `EmailSender.prepare_email_content` replacement dict (lines 82-94):
contact items first, then `sender_name`, then `sender_email`. -/
def buildReplacements (sender_name sender_email : String)
    (contact : List (String × PyVal)) : List (String × String) :=
  dictInsert (dictInsert (buildContactDict contact) "sender_name" sender_name)
    "sender_email" sender_email

/-- Embedding of `EmailSender.prepare_email_content` (email_sender.py lines 69-106):
render subject and content independently against the same dict. -/
def prepare_email_content (sender_name sender_email subject_template content_template : String)
    (contact : List (String × PyVal)) : String × String :=
  (renderTemplate (buildReplacements sender_name sender_email contact) subject_template,
   renderTemplate (buildReplacements sender_name sender_email contact) content_template)

/-- The replacement mapping as the spec words it for the direct-protocol
backend (refinement target, written from the spec text of §4.2): contact
fields coerced to string, unioned with `sender_name` and `sender_email`,
the sender entries taking priority. -/
def specReplacementLookup (contact : List (String × PyVal))
    (sender_name sender_email k : String) : Option String :=
  if k = "sender_email" then some sender_email
  else if k = "sender_name" then some sender_name
  else (contact.find? (fun kv => kv.1 == k)).map (fun kv => coerceVal kv.2)

end EmailSender

namespace GmailSender

open Sender

/-- Embedding of the `GmailSender.prepare_email_content` replacement dict
(gmail_sender.py lines 341-352): contact items then `sender_email` only;
the parameter is the already-defaulted `self.sender_email or ""`. -/
def buildReplacements (sender_email : String)
    (contact : List (String × PyVal)) : List (String × String) :=
  dictInsert (buildContactDict contact) "sender_email" sender_email

/-- Embedding of `GmailSender.prepare_email_content` (gmail_sender.py lines 328-364). -/
def prepare_email_content (sender_email subject_template content_template : String)
    (contact : List (String × PyVal)) : String × String :=
  (renderTemplate (buildReplacements sender_email contact) subject_template,
   renderTemplate (buildReplacements sender_email contact) content_template)

/-- The replacement mapping as the spec words it for the provider-API
backend (refinement target): contact fields unioned with `sender_email`
only. -/
def specReplacementLookup (contact : List (String × PyVal))
    (sender_email k : String) : Option String :=
  if k = "sender_email" then some sender_email
  else (contact.find? (fun kv => kv.1 == k)).map (fun kv => coerceVal kv.2)

end GmailSender

namespace Sender

/-! ## Occurrence preservation for absent keys

Replacing the token of one brace-free key never disturbs an occurrence
of a different brace-free key's token: the two tokens cannot overlap in
any string, so `str.replace` copies every character of the absent key's
token through unchanged. -/

theorem hasSubChars_append_right (n l₁ l₂ : List Char)
    (h : hasSubChars n l₂ = true) : hasSubChars n (l₁ ++ l₂) = true := by
  obtain ⟨pre, post, hp⟩ := (hasSubChars_iff n l₂).1 h
  refine (hasSubChars_iff n _).2 ⟨l₁ ++ pre, post, ?_⟩
  rw [hp]
  simp [List.append_assoc]

theorem hasSubChars_cons (n : List Char) (c : Char) (l : List Char)
    (h : hasSubChars n l = true) : hasSubChars n (c :: l) = true := by
  simp [hasSubChars, h]

/-- Dropping from an append inside the left part. -/
theorem drop_append_le {α : Type} (n : Nat) :
    ∀ (l₁ l₂ : List α), n ≤ l₁.length → (l₁ ++ l₂).drop n = l₁.drop n ++ l₂ := by
  induction n with
  | zero => intro l₁ l₂ _; simp
  | succ m ih =>
    intro l₁ l₂ h
    cases l₁ with
    | nil => simp at h
    | cons a l₁' =>
      simp only [List.cons_append, List.drop_succ_cons]
      exact ih l₁' l₂ (by simpa using h)

/-- A block with no opening brace that is followed by an opening brace
in another reading of the same list must fit before that brace. -/
theorem seg_nonlb_length_le (seg : List Char) :
    ∀ (pre rest w : List Char), seg.all (fun c => !(c == lbrace)) = true →
      seg ++ w = pre ++ lbrace :: rest → seg.length ≤ pre.length := by
  induction seg with
  | nil => intro pre rest w _ _; simp
  | cons c seg' ih =>
    intro pre rest w hall heq
    simp only [List.all_cons, Bool.and_eq_true] at hall
    cases pre with
    | nil =>
      exfalso
      simp only [List.nil_append, List.cons_append, List.cons.injEq] at heq
      rw [heq.1] at hall
      simp at hall
    | cons p pre' =>
      simp only [List.cons_append, List.cons.injEq] at heq
      have := ih pre' rest w hall.2 heq.2
      simp only [List.length_cons]
      omega

/-- Two brace-free words followed by the closing braces and arbitrary
tails agree iff the words agree. -/
theorem braceFree_mid_eq (k : List Char) :
    ∀ (k' post w : List Char), braceFree k = true → braceFree k' = true →
      k ++ rbrace :: rbrace :: post = k' ++ rbrace :: rbrace :: w → k = k' := by
  induction k with
  | nil =>
    intro k' post w _ hbf' heq
    cases k' with
    | nil => rfl
    | cons c' k₁' =>
      exfalso
      simp only [List.nil_append, List.cons_append, List.cons.injEq] at heq
      have hc := List.all_eq_true.1 hbf' c' (List.mem_cons_self _ _)
      rw [← heq.1] at hc
      simp [braceFreeChar] at hc
  | cons c k₁ ih =>
    intro k' post w hbf hbf' heq
    cases k' with
    | nil =>
      exfalso
      simp only [List.nil_append, List.cons_append, List.cons.injEq] at heq
      have hc := List.all_eq_true.1 hbf c (List.mem_cons_self _ _)
      rw [heq.1] at hc
      simp [braceFreeChar] at hc
    | cons c' k₁' =>
      simp only [List.cons_append, List.cons.injEq] at heq
      have h1 : braceFree k₁ = true :=
        List.all_eq_true.2 fun x hx => List.all_eq_true.1 hbf x (List.mem_cons_of_mem _ hx)
      have h2 : braceFree k₁' = true :=
        List.all_eq_true.2 fun x hx => List.all_eq_true.1 hbf' x (List.mem_cons_of_mem _ hx)
      rw [heq.1, ih k₁' post w h1 h2 heq.2]

/-- A brace-free word with its closing braces contains no opening brace. -/
theorem braceFree_close_nonlb {k : List Char} (hk : braceFree k = true) :
    (k ++ [rbrace, rbrace]).all (fun c => !(c == lbrace)) = true := by
  refine List.all_eq_true.2 ?_
  intro c hc
  rcases List.mem_append.1 hc with h | h
  · have := List.all_eq_true.1 hk c h
    simp only [braceFreeChar, Bool.not_eq_eq_eq_not, Bool.not_true,
      Bool.or_eq_false_iff] at this
    simp [this.1]
  · rcases List.mem_cons.1 h with h | h
    · subst h
      decide
    · rcases List.mem_cons.1 h with h | h
      · subst h
        decide
      · cases h

/-- If the token of `k'` starts a string in which the token of a
different key `k` occurs right after a block `pre`, the whole `k'` token
fits inside `pre`: distinct tokens never overlap. -/
theorem tok_startsWith_bound {k k' : List Char} (hk : braceFree k = true)
    (hk' : braceFree k' = true) (hne : k ≠ k') (pre post : List Char)
    (h : startsWithChars (tokList k') (pre ++ (tokList k ++ post)) = true) :
    (tokList k').length ≤ pre.length := by
  obtain ⟨w, hw⟩ := (startsWithChars_iff _ _).1 h
  have htk : tokList k ++ post = lbrace :: (lbrace :: ((k ++ [rbrace, rbrace]) ++ post)) := by
    simp [tokList]
  have htk' : tokList k' ++ w = lbrace :: (lbrace :: ((k' ++ [rbrace, rbrace]) ++ w)) := by
    simp [tokList]
  rw [htk, htk'] at hw
  cases pre with
  | nil =>
    exfalso
    rw [List.nil_append] at hw
    injection hw with h1 hw2
    injection hw2 with h2 hw3
    refine hne (braceFree_mid_eq k k' post w hk hk' ?_)
    have := hw3
    simp only [List.append_assoc, List.cons_append, List.nil_append,
      List.singleton_append] at this ⊢
    exact this
  | cons x pre' =>
    rw [List.cons_append] at hw
    injection hw with h1 hw2
    cases pre' with
    | nil =>
      exfalso
      rw [List.nil_append] at hw2
      injection hw2 with h2 hw3
      -- hw3 : lbrace :: ((k ++ [rbrace, rbrace]) ++ post) = (k' ++ [rbrace, rbrace]) ++ w
      have hb := seg_nonlb_length_le (k' ++ [rbrace, rbrace]) []
        ((k ++ [rbrace, rbrace]) ++ post) w (braceFree_close_nonlb hk')
        (by rw [← hw3]; simp)
      simp only [List.length_append, List.length_cons, List.length_nil] at hb
      omega
    | cons y pre'' =>
      rw [List.cons_append] at hw2
      injection hw2 with h2 hw3
      -- hw3 : pre'' ++ (lbrace :: lbrace :: ((k ++ [rbrace, rbrace]) ++ post))
      --        = (k' ++ [rbrace, rbrace]) ++ w
      have hb := seg_nonlb_length_le (k' ++ [rbrace, rbrace]) pre''
        (lbrace :: ((k ++ [rbrace, rbrace]) ++ post)) w (braceFree_close_nonlb hk')
        (by rw [← hw3])
      simp only [tokList, List.length_append, List.length_cons, List.length_nil] at hb ⊢
      omega

/-- `str.replace` copies a block without opening braces verbatim. -/
theorem replaceFuel_copy_nonlb (k' rep : List Char) :
    ∀ (seg : List Char) (n : Nat) (post : List Char),
      seg.all (fun c => !(c == lbrace)) = true →
      ∃ w, replaceFuel (tokList k') rep n (seg ++ post) = seg ++ w := by
  intro seg
  induction seg with
  | nil => intro n post _; exact ⟨replaceFuel (tokList k') rep n post, by simp⟩
  | cons c seg' ih =>
    intro n post hall
    simp only [List.all_cons, Bool.and_eq_true] at hall
    cases n with
    | zero => exact ⟨post, rfl⟩
    | succ m =>
      have hlc : (lbrace == c) = false := by
        cases h : lbrace == c
        · rfl
        · rw [← beq_iff_eq.1 h] at hall
          simp at hall
      have hsw : startsWithChars (tokList k') (c :: (seg' ++ post)) = false := by
        simp [tokList, startsWithChars, hlc]
      obtain ⟨w, hw⟩ := ih m post hall.2
      refine ⟨w, ?_⟩
      show replaceFuel (tokList k') rep (m + 1) (c :: (seg' ++ post)) = (c :: seg') ++ w
      simp only [replaceFuel, hsw, Bool.false_eq_true, if_false]
      rw [hw]
      rfl

/-- `str.replace` with a different key's token copies the tail of this
key's token (everything after its first opening brace) verbatim. -/
theorem replaceFuel_copy_tokTail {k : List Char} (k' rep : List Char)
    (hk : braceFree k = true) :
    ∀ (n : Nat) (post : List Char),
      ∃ w, replaceFuel (tokList k') rep n ((lbrace :: (k ++ [rbrace, rbrace])) ++ post)
        = (lbrace :: (k ++ [rbrace, rbrace])) ++ w := by
  intro n post
  cases n with
  | zero => exact ⟨post, rfl⟩
  | succ m =>
    have hsw : startsWithChars (tokList k')
        (lbrace :: ((k ++ [rbrace, rbrace]) ++ post)) = false := by
      cases hkc : k with
      | nil =>
        have hlr : (lbrace == rbrace) = false := by decide
        simp [tokList, startsWithChars, hlr]
      | cons c k₁ =>
        have hc := List.all_eq_true.1 hk c (by rw [hkc]; exact List.mem_cons_self _ _)
        have hcl : (lbrace == c) = false := by
          cases h : lbrace == c
          · rfl
          · rw [← beq_iff_eq.1 h] at hc
            simp [braceFreeChar] at hc
        simp [tokList, startsWithChars, hcl]
    obtain ⟨w, hw⟩ := replaceFuel_copy_nonlb k' rep (k ++ [rbrace, rbrace]) m post
      (braceFree_close_nonlb hk)
    refine ⟨w, ?_⟩
    show replaceFuel (tokList k') rep (m + 1) (lbrace :: ((k ++ [rbrace, rbrace]) ++ post))
      = lbrace :: ((k ++ [rbrace, rbrace]) ++ w)
    simp only [replaceFuel, hsw, Bool.false_eq_true, if_false]
    rw [hw]

/-- Replacing the token of `k'` preserves every occurrence of the token
of a different brace-free key `k`, for any fuel. -/
theorem replaceFuel_preserves_token {k k' : List Char} (rep : List Char)
    (hk : braceFree k = true) (hk' : braceFree k' = true) (hne : k ≠ k') :
    ∀ (n : Nat) (cs : List Char), hasSubChars (tokList k) cs = true →
      hasSubChars (tokList k) (replaceFuel (tokList k') rep n cs) = true := by
  intro n
  induction n with
  | zero => intro cs h; exact h
  | succ m ih =>
    intro cs h
    obtain ⟨pre, post, hcs⟩ := (hasSubChars_iff _ _).1 h
    cases cs with
    | nil =>
      exfalso
      rcases pre with _ | ⟨x, pre'⟩ <;> simp [tokList] at hcs
    | cons c cs' =>
      by_cases hm : startsWithChars (tokList k') (c :: cs') = true
      · have hm' : startsWithChars (tokList k') (pre ++ (tokList k ++ post)) = true := by
          rw [← List.append_assoc, ← hcs]
          exact hm
        have hle := tok_startsWith_bound hk hk' hne pre post hm'
        have hdrop : List.drop (tokList k').length (c :: cs')
            = pre.drop (tokList k').length ++ (tokList k ++ post) := by
          rw [hcs, List.append_assoc]
          exact drop_append_le _ pre _ hle
        have hstep : replaceFuel (tokList k') rep (m + 1) (c :: cs')
            = rep ++ replaceFuel (tokList k') rep m (List.drop (tokList k').length (c :: cs')) := by
          simp only [replaceFuel, hm, if_true]
        rw [hstep, hdrop]
        refine hasSubChars_append_right _ rep _ (ih _ ?_)
        refine (hasSubChars_iff _ _).2 ⟨pre.drop (tokList k').length, post, ?_⟩
        rw [List.append_assoc]
      · have hmf : startsWithChars (tokList k') (c :: cs') = false := by
          cases hx : startsWithChars (tokList k') (c :: cs')
          · rfl
          · exact absurd hx hm
        have hstep : replaceFuel (tokList k') rep (m + 1) (c :: cs')
            = c :: replaceFuel (tokList k') rep m cs' := by
          simp only [replaceFuel, hmf, Bool.false_eq_true, if_false]
        rw [hstep]
        cases pre with
        | nil =>
          have hcs' : c :: cs' = lbrace :: ((lbrace :: (k ++ [rbrace, rbrace])) ++ post) := by
            rw [hcs]
            simp [tokList]
          have hc1 : c = lbrace := by
            injection hcs'
          have hc2 : cs' = (lbrace :: (k ++ [rbrace, rbrace])) ++ post := by
            injection hcs' with h1 h2
          obtain ⟨w, hw⟩ := replaceFuel_copy_tokTail k' rep hk m post
          rw [hc1, hc2, hw]
          refine (hasSubChars_iff _ _).2 ⟨[], w, ?_⟩
          simp [tokList]
        | cons c'' pre' =>
          have hcs2 : cs' = pre' ++ tokList k ++ post := by
            have : c :: cs' = c'' :: (pre' ++ tokList k ++ post) := by
              rw [hcs]
              simp [List.append_assoc]
            injection this with h1 h2
          have hsub : hasSubChars (tokList k) cs' = true :=
            (hasSubChars_iff _ _).2 ⟨pre', post, hcs2⟩
          exact hasSubChars_cons _ c _ (ih cs' hsub)

/-- `pyReplace` with a different key's token preserves occurrences of
this key's token. -/
theorem pyReplace_preserves_token (t : String) (k k' v : String)
    (hk : braceFree k.data = true) (hk' : braceFree k'.data = true)
    (hne : k' ≠ k)
    (h : hasSubChars (tokList k.data) t.data = true) :
    hasSubChars (tokList k.data) (pyReplace t (tokenOf k') v).data = true := by
  have hie : (tokenOf k').data.isEmpty = false := by
    rw [tokenOf_data]
    rfl
  have hdne : k.data ≠ k'.data := fun hd => hne (String.ext hd.symm)
  unfold pyReplace
  rw [hie]
  simp only [Bool.false_eq_true, if_false]
  show hasSubChars (tokList k.data)
    (replaceFuel (tokenOf k').data v.data t.data.length t.data) = true
  rw [tokenOf_data]
  exact replaceFuel_preserves_token v.data hk hk' hdne t.data.length t.data h

/-- Rendering against a mapping whose keys are brace-free and all
different from `k` preserves every occurrence of the token of `k`, in
any template. -/
theorem renderTemplate_preserves_token (k : String) (hk : braceFree k.data = true) :
    ∀ (repl : List (String × String)) (t : String),
      (∀ kv ∈ repl, braceFree kv.1.data = true ∧ kv.1 ≠ k) →
      hasSubChars (tokList k.data) t.data = true →
      hasSubChars (tokList k.data) (renderTemplate repl t).data = true := by
  intro repl
  induction repl with
  | nil => intro t _ h; exact h
  | cons kv rest ih =>
    intro t hkeys h
    have hkv := hkeys kv (List.mem_cons_self _ _)
    show hasSubChars (tokList k.data)
      (renderTemplate rest (pyReplace t (tokenOf kv.1) kv.2)).data = true
    refine ih (pyReplace t (tokenOf kv.1) kv.2)
      (fun kv' h' => hkeys kv' (List.mem_cons_of_mem _ h')) ?_
    exact pyReplace_preserves_token t k kv.1 kv.2 hk hkv.1 hkv.2 h

end Sender

/-- Every key of the direct-protocol replacement mapping is brace-free
and differs from an absent key `k`. -/
theorem EmailSender.replacements_keys_absent (sn se : String)
    (contact : List (String × Sender.PyVal)) (k : String)
    (hbf : ∀ kv ∈ contact, Sender.braceFree kv.1.data = true)
    (hmem : k ∉ contact.map Prod.fst) (hn1 : k ≠ "sender_name")
    (hn2 : k ≠ "sender_email") :
    ∀ kv ∈ EmailSender.buildReplacements sn se contact,
      Sender.braceFree kv.1.data = true ∧ kv.1 ≠ k := by
  intro kv hkv
  have hkk : kv.1 ∈ (EmailSender.buildReplacements sn se contact).map Prod.fst :=
    List.mem_map_of_mem Prod.fst hkv
  unfold EmailSender.buildReplacements at hkk
  rcases Sender.mem_keys_dictInsert hkk with hkk | hkk
  · rcases Sender.mem_keys_dictInsert hkk with hkk | hkk
    · have hc := Sender.mem_keys_buildContactDict hkk
      obtain ⟨kv', hkv', heq⟩ := List.mem_map.1 hc
      constructor
      · rw [← heq]
        exact hbf kv' hkv'
      · intro hkeq
        exact hmem (hkeq ▸ hc)
    · constructor
      · rw [hkk]
        decide
      · rw [hkk]
        exact fun hh => hn1 hh.symm
  · constructor
    · rw [hkk]
      decide
    · rw [hkk]
      exact fun hh => hn2 hh.symm

/-- Claim C4: template rendering is a total function and every token of
a key absent from the replacement mapping is left verbatim in the
output: in an arbitrary subject or body template, any occurrence of the
absent key's token still occurs in the rendered output; a template that
is exactly the absent key's token is returned unchanged; and the
concrete rendering of the spec example on the direct-protocol backend
gives exactly the expected pair. -/
theorem C4_absent_keys_left_verbatim :
    (∀ (sn se : String) (contact : List (String × Sender.PyVal)) (k : String)
        (subject_template content_template : String),
        Sender.braceFree k.data = true →
        (∀ kv ∈ contact, Sender.braceFree kv.1.data = true) →
        k ∉ contact.map Prod.fst → k ≠ "sender_name" → k ≠ "sender_email" →
        (Sender.hasSubChars (Sender.tokList k.data) subject_template.data = true →
          Sender.hasSubChars (Sender.tokList k.data)
            (EmailSender.prepare_email_content sn se subject_template content_template
              contact).1.data = true)
        ∧ (Sender.hasSubChars (Sender.tokList k.data) content_template.data = true →
          Sender.hasSubChars (Sender.tokList k.data)
            (EmailSender.prepare_email_content sn se subject_template content_template
              contact).2.data = true))
    ∧ (∀ (sn se : String) (contact : List (String × Sender.PyVal)) (k : String),
        Sender.braceFree k.data = true →
        (∀ kv ∈ contact, Sender.braceFree kv.1.data = true) →
        k ∉ contact.map Prod.fst → k ≠ "sender_name" → k ≠ "sender_email" →
        EmailSender.prepare_email_content sn se (Sender.tokenOf k) (Sender.tokenOf k) contact
          = (Sender.tokenOf k, Sender.tokenOf k))
    ∧ EmailSender.prepare_email_content "Alice" "alice@example.com"
        "Hello \x7b\x7bnom\x7d\x7d" "Dear \x7b\x7bnom\x7d\x7d, from \x7b\x7bsender_name\x7d\x7d"
        [("nom", Sender.PyVal.str "Durand")]
        = ("Hello Durand", "Dear Durand, from Alice") := by
  refine ⟨?_, ?_, ?_⟩
  · intro sn se contact k subject_template content_template hk hbf hmem hn1 hn2
    have habs := EmailSender.replacements_keys_absent sn se contact k hbf hmem hn1 hn2
    constructor
    · intro hocc
      exact Sender.renderTemplate_preserves_token k hk
        (EmailSender.buildReplacements sn se contact) subject_template habs hocc
    · intro hocc
      exact Sender.renderTemplate_preserves_token k hk
        (EmailSender.buildReplacements sn se contact) content_template habs hocc
  · intro sn se contact k hk hbf hmem hn1 hn2
    have habs := EmailSender.replacements_keys_absent sn se contact k hbf hmem hn1 hn2
    unfold EmailSender.prepare_email_content
    rw [Sender.renderTemplate_absent _ k hk habs]
  · decide

/-- Witness for C4: the absent key `prenom` survives rendering verbatim,
both inside a larger template and as a bare-token template. -/
theorem C4_absent_keys_left_verbatim_witness :
    Sender.hasSubChars (Sender.tokList "prenom".data)
        (EmailSender.prepare_email_content "Alice" "alice@example.com"
          "Bonjour \x7b\x7bprenom\x7d\x7d !" "Salut \x7b\x7bprenom\x7d\x7d, \x7b\x7bnom\x7d\x7d"
          [("nom", Sender.PyVal.str "Durand")]).1.data = true
    ∧ Sender.hasSubChars (Sender.tokList "prenom".data)
        (EmailSender.prepare_email_content "Alice" "alice@example.com"
          "Bonjour \x7b\x7bprenom\x7d\x7d !" "Salut \x7b\x7bprenom\x7d\x7d, \x7b\x7bnom\x7d\x7d"
          [("nom", Sender.PyVal.str "Durand")]).2.data = true
    ∧ EmailSender.prepare_email_content "Alice" "alice@example.com"
        (Sender.tokenOf "prenom") (Sender.tokenOf "prenom")
        [("nom", Sender.PyVal.str "Durand")]
      = (Sender.tokenOf "prenom", Sender.tokenOf "prenom") :=
  ⟨(C4_absent_keys_left_verbatim.1 "Alice" "alice@example.com"
      [("nom", Sender.PyVal.str "Durand")] "prenom"
      "Bonjour \x7b\x7bprenom\x7d\x7d !" "Salut \x7b\x7bprenom\x7d\x7d, \x7b\x7bnom\x7d\x7d"
      (by decide) (by intro kv hkv; fin_cases hkv <;> decide) (by decide) (by decide)
      (by decide)).1 (by decide),
   (C4_absent_keys_left_verbatim.1 "Alice" "alice@example.com"
      [("nom", Sender.PyVal.str "Durand")] "prenom"
      "Bonjour \x7b\x7bprenom\x7d\x7d !" "Salut \x7b\x7bprenom\x7d\x7d, \x7b\x7bnom\x7d\x7d"
      (by decide) (by intro kv hkv; fin_cases hkv <;> decide) (by decide) (by decide)
      (by decide)).2 (by decide),
   C4_absent_keys_left_verbatim.2.1 "Alice" "alice@example.com"
      [("nom", Sender.PyVal.str "Durand")] "prenom" (by decide)
      (by intro kv hkv; fin_cases hkv <;> decide) (by decide) (by decide) (by decide)⟩

/-- Claim C5: through lookup, the direct-protocol replacement mapping is
the contact fields (strings, NaN to empty) unioned with both
`sender_name` and `sender_email`, while the provider-API mapping carries
`sender_email` only; consequently the provider-API backend leaves a
`sender_name` token unreplaced. -/
theorem C5_replacement_mapping :
    (∀ (contact : List (String × Sender.PyVal)) (sn se k : String),
        (contact.map Prod.fst).Nodup →
        Sender.dictFind (EmailSender.buildReplacements sn se contact) k
            = EmailSender.specReplacementLookup contact sn se k
          ∧ Sender.dictFind (GmailSender.buildReplacements se contact) k
            = GmailSender.specReplacementLookup contact se k)
    ∧ (∀ (se : String) (contact : List (String × Sender.PyVal)),
        (∀ kv ∈ contact, Sender.braceFree kv.1.data = true) →
        "sender_name" ∉ contact.map Prod.fst →
        GmailSender.prepare_email_content se (Sender.tokenOf "sender_name")
            (Sender.tokenOf "sender_name") contact
          = (Sender.tokenOf "sender_name", Sender.tokenOf "sender_name")) := by
  constructor
  · intro contact sn se k hnd
    constructor
    · unfold EmailSender.buildReplacements EmailSender.specReplacementLookup
      rw [Sender.dictFind_dictInsert, Sender.dictFind_dictInsert,
        Sender.buildContactDict_lookup contact k hnd]
    · unfold GmailSender.buildReplacements GmailSender.specReplacementLookup
      rw [Sender.dictFind_dictInsert, Sender.buildContactDict_lookup contact k hnd]
  · intro se contact hbf hmem
    have habs : ∀ kv ∈ GmailSender.buildReplacements se contact,
        Sender.braceFree kv.1.data = true ∧ kv.1 ≠ "sender_name" := by
      intro kv hkv
      have hkk : kv.1 ∈ (GmailSender.buildReplacements se contact).map Prod.fst :=
        List.mem_map_of_mem Prod.fst hkv
      unfold GmailSender.buildReplacements at hkk
      rcases Sender.mem_keys_dictInsert hkk with hkk | hkk
      · have hc := Sender.mem_keys_buildContactDict hkk
        obtain ⟨kv', hkv', heq⟩ := List.mem_map.1 hc
        constructor
        · rw [← heq]
          exact hbf kv' hkv'
        · intro hkeq
          exact hmem (hkeq ▸ hc)
      · constructor
        · rw [hkk]
          decide
        · rw [hkk]
          decide
    unfold GmailSender.prepare_email_content
    rw [Sender.renderTemplate_absent _ "sender_name" (by decide) habs]

/-- Witness for C5 at a concrete contact. -/
theorem C5_replacement_mapping_witness :
    (Sender.dictFind
        (EmailSender.buildReplacements "Alice" "alice@example.com"
          [("nom", Sender.PyVal.str "Durand"), ("entreprise", Sender.PyVal.nan)]) "nom"
      = EmailSender.specReplacementLookup
          [("nom", Sender.PyVal.str "Durand"), ("entreprise", Sender.PyVal.nan)]
          "Alice" "alice@example.com" "nom")
    ∧ GmailSender.prepare_email_content "alice@example.com"
        (Sender.tokenOf "sender_name") (Sender.tokenOf "sender_name")
        [("nom", Sender.PyVal.str "Durand")]
      = (Sender.tokenOf "sender_name", Sender.tokenOf "sender_name") :=
  ⟨(C5_replacement_mapping.1
      [("nom", Sender.PyVal.str "Durand"), ("entreprise", Sender.PyVal.nan)]
      "Alice" "alice@example.com" "nom" (by decide)).1,
   C5_replacement_mapping.2 "alice@example.com" [("nom", Sender.PyVal.str "Durand")]
      (by intro kv hkv; fin_cases hkv <;> decide) (by decide)⟩

namespace Sender

/-- Outcome of the network phase of one direct-protocol send; the model
makes the transport an explicit parameter (the code's `except` arms). -/
inductive TransportResult where
  | delivered
  | authError
  | recipientsRefused
  | disconnected
  | otherError
deriving DecidableEq, Repr

/-- Observable behaviour of one `send_email` call: its boolean return
value and whether the transport/provider phase was reached at all. -/
structure SendCall where
  result : Bool
  attempted : Bool
deriving DecidableEq, Repr

/-- Embedding of `contact.get('email', '')` followed by the coercions the call sites
apply; a NaN value behaves like the missing/empty case (in Python it
raises a `TypeError` inside `re.match` which the enclosing `except`
turns into the same `False`-without-transmission outcome). -/
def getEmail (contact : List (String × PyVal)) : String :=
  match contact.find? (fun kv => kv.1 == "email") with
  | some kv => coerceVal kv.2
  | none => ""

end Sender

namespace EmailSender

open Sender

/-- Embedding of `EmailSender._is_valid_email` (lines 219-230): the bare anchored
regex match, no empty/NA guard. -/
def is_valid_email (s : String) : Bool := pyEmailMatch s.data

/-- Embedding of `EmailSender.send_email` (lines 156-217): re-validate the recipient,
short-circuit to `False` before any network activity on failure; else
render, build the message, and hand it to the transport, mapping every
transport exception to `False`. -/
def send_email (sender_name sender_email subject_template content_template : String)
    (contact : List (String × PyVal)) (transport : TransportResult) : SendCall :=
  let recipient := getEmail contact
  if (recipient == "") || !(is_valid_email recipient) then
    { result := false, attempted := false }
  else
    let _rendered := prepare_email_content sender_name sender_email
      subject_template content_template contact
    match transport with
    | .delivered => { result := true, attempted := true }
    | _ => { result := false, attempted := true }

end EmailSender

namespace GmailSender

open Sender

/-- Embedding of `GmailSender.send_email` (gmail_sender.py lines 431-477): requires an
authenticated service, rejects only an *empty* recipient, then builds the
message and calls `send_message`, whose boolean is returned. -/
def send_email (serviceReady : Bool) (sender_email subject_template content_template : String)
    (contact : List (String × PyVal)) (transportOk : Bool) : SendCall :=
  if !serviceReady then
    { result := false, attempted := false }
  else
    let recipient := getEmail contact
    if recipient == "" then
      { result := false, attempted := false }
    else
      let _rendered := prepare_email_content sender_email
        subject_template content_template contact
      { result := transportOk, attempted := true }

end GmailSender

/-- Claim C2 as stated is FALSE: the provider-API backend does not
re-validate the recipient's syntax.  A syntactically invalid but
non-empty recipient fails `validate_email` yet `GmailSender.send_email`
still reaches the transport (and here returns true). -/
theorem C2_counterexample_gmail_no_revalidation :
    Utils.validate_email "not-an-email" = false
    ∧ GmailSender.send_email true "a@b.co" "s" "c"
        [("email", Sender.PyVal.str "not-an-email")] true
      = { result := true, attempted := true } := by
  constructor
  · decide
  · decide

/-- Claim C2 amended: the two validators agree on every string; the
direct-protocol backend re-validates at send time and an invalid
recipient short-circuits to failure with no transmission attempted; the
provider-API backend checks only non-emptiness — an empty recipient
short-circuits, but any non-empty recipient (valid or not) reaches the
transport. -/
theorem C2_send_time_validation :
    (∀ s : String, EmailSender.is_valid_email s = Utils.validate_email s)
    ∧ (∀ (sn se st ct : String) (contact : List (String × Sender.PyVal))
        (tr : Sender.TransportResult),
        Utils.validate_email (Sender.getEmail contact) = false →
        EmailSender.send_email sn se st ct contact tr
          = { result := false, attempted := false })
    ∧ (∀ (se st ct : String) (contact : List (String × Sender.PyVal)) (tOk : Bool),
        Sender.getEmail contact = "" →
        GmailSender.send_email true se st ct contact tOk
          = { result := false, attempted := false })
    ∧ (∀ (se st ct : String) (contact : List (String × Sender.PyVal)) (tOk : Bool),
        Sender.getEmail contact ≠ "" →
        (GmailSender.send_email true se st ct contact tOk).attempted = true) := by
  have hagree : ∀ s : String, EmailSender.is_valid_email s = Utils.validate_email s := by
    intro s
    unfold EmailSender.is_valid_email Utils.validate_email
    cases h : s.data.isEmpty
    · simp
    · have hnil : s.data = [] := by
        cases hd : s.data
        · rfl
        · rw [hd] at h; simp at h
      rw [if_pos rfl]
      unfold Sender.pyEmailMatch
      rw [hnil]
      rfl
  refine ⟨hagree, ?_, ?_, ?_⟩
  · intro sn se st ct contact tr hv
    unfold EmailSender.send_email
    have hguard : ((Sender.getEmail contact == "")
        || !(EmailSender.is_valid_email (Sender.getEmail contact))) = true := by
      by_cases he : Sender.getEmail contact = ""
      · simp [he]
      · rw [hagree, hv]
        simp
    simp [hguard]
  · intro se st ct contact tOk he
    unfold GmailSender.send_email
    simp [he]
  · intro se st ct contact tOk he
    unfold GmailSender.send_email
    have hb : (Sender.getEmail contact == "") = false := by
      cases h : Sender.getEmail contact == ""
      · rfl
      · exact absurd (beq_iff_eq.1 h) he
    simp [hb]

/-- Witness for C2's amended statement at concrete inputs. -/
theorem C2_send_time_validation_witness :
    EmailSender.is_valid_email "a@b.co" = Utils.validate_email "a@b.co"
    ∧ EmailSender.send_email "Alice" "a@b.co" "s" "c"
        [("email", Sender.PyVal.str "broken")] Sender.TransportResult.delivered
      = { result := false, attempted := false }
    ∧ GmailSender.send_email true "a@b.co" "s" "c" [("nom", Sender.PyVal.str "X")] true
      = { result := false, attempted := false }
    ∧ (GmailSender.send_email true "a@b.co" "s" "c"
        [("email", Sender.PyVal.str "broken")] true).attempted = true :=
  ⟨C2_send_time_validation.1 "a@b.co",
   C2_send_time_validation.2.1 "Alice" "a@b.co" "s" "c"
     [("email", Sender.PyVal.str "broken")] Sender.TransportResult.delivered (by decide),
   C2_send_time_validation.2.2.1 "a@b.co" "s" "c" [("nom", Sender.PyVal.str "X")] true
     (by decide),
   C2_send_time_validation.2.2.2 "a@b.co" "s" "c"
     [("email", Sender.PyVal.str "broken")] true (by decide)⟩

namespace App

/-! ## The bulk send loop (`app.py` lines 622-702)

The Streamlit session state becomes explicit state passing: `SendStatus`
is `st.session_state.sending_status`, the log list is
`st.session_state.send_logs`.  The per-record environment carries the
backend's outcome for that record (`True`, `False`, or a raised
exception) and whether the stop button flipped `active` to false before
the iteration's top-of-loop check. -/

structure SendStatus where
  active : Bool
  progress : Nat
  total : Nat
  success : Nat
  errors : List String
deriving DecidableEq, Repr

structure LogEntry where
  email : String
  status : String
  timestamp : String
  error : String
deriving DecidableEq, Repr

/-- What `send_email` did for one record: returned true, returned false,
or raised (the `except` branch). -/
inductive SendOutcome where
  | ok
  | failed
  | errored (msg : String)
deriving DecidableEq, Repr

structure LoopRec where
  email : String
  outcome : SendOutcome
  ts : String
  cancelBefore : Bool
deriving DecidableEq, Repr

def isOk : SendOutcome → Bool
  | .ok => true
  | _ => false

/-- The log entry appended for one record (lines 661-688). -/
def logEntryOf (r : LoopRec) : LogEntry :=
  match r.outcome with
  | .ok => { email := r.email, status := "Succès", timestamp := r.ts, error := "" }
  | .failed => { email := r.email, status := "Échec", timestamp := r.ts,
                 error := "Erreur d\x27envoi" }
  | .errored m => { email := r.email, status := "Erreur", timestamp := r.ts, error := m }

/-- The status mutation of one iteration: exactly one of
`success += 1` / `errors.append(email)`, then `progress += 1`. -/
def iterStatus (st : SendStatus) (r : LoopRec) : SendStatus :=
  let st' :=
    match r.outcome with
    | .ok => { st with success := st.success + 1 }
    | .failed => { st with errors := st.errors ++ [r.email] }
    | .errored _ => { st with errors := st.errors ++ [r.email] }
  { st' with progress := st'.progress + 1 }

/-- The loop: top-of-iteration cancellation check, one send per record,
`active := false` on exit (lines 635-696). -/
def runLoop : SendStatus → List LogEntry → List LoopRec → SendStatus × List LogEntry
  | st, log, [] => ({ st with active := false }, log)
  | st, log, r :: rs =>
    let st0 := if r.cancelBefore then { st with active := false } else st
    if st0.active then
      runLoop (iterStatus st0 r) (log ++ [logEntryOf r]) rs
    else
      ({ st0 with active := false }, log)

/-- The status initialization at lines 623-629. -/
def initStatus (n : Nat) : SendStatus :=
  { active := true, progress := 0, total := n, success := 0, errors := [] }

def bulkSend (rs : List LoopRec) : SendStatus × List LogEntry :=
  runLoop (initStatus rs.length) [] rs

theorem iterStatus_active (st : SendStatus) (r : LoopRec) :
    (iterStatus st r).active = st.active := by
  obtain ⟨e, o, t, c⟩ := r
  cases o <;> rfl

theorem iterStatus_total (st : SendStatus) (r : LoopRec) :
    (iterStatus st r).total = st.total := by
  obtain ⟨e, o, t, c⟩ := r
  cases o <;> rfl

theorem iterStatus_progress (st : SendStatus) (r : LoopRec) :
    (iterStatus st r).progress = st.progress + 1 := by
  obtain ⟨e, o, t, c⟩ := r
  cases o <;> rfl

/-- An uncancelled run processes every record: closed form of the loop. -/
theorem runLoop_no_cancel (rs : List LoopRec) :
    ∀ (st : SendStatus) (log : List LogEntry), st.active = true →
      (∀ r ∈ rs, r.cancelBefore = false) →
      runLoop st log rs
        = ({ active := false,
             progress := st.progress + rs.length,
             total := st.total,
             success := st.success + rs.countP (fun r => isOk r.outcome),
             errors := st.errors ++ (rs.filter (fun r => !isOk r.outcome)).map LoopRec.email },
           log ++ rs.map logEntryOf) := by
  induction rs with
  | nil =>
    intro st log _ _
    simp only [runLoop, List.countP_nil, List.filter_nil, List.map_nil,
      List.append_nil, List.length_nil, Nat.add_zero]
  | cons r rs ih =>
    intro st log hact hnc
    have hcb : r.cancelBefore = false := hnc r (List.mem_cons_self _ _)
    have hnc' : ∀ x ∈ rs, x.cancelBefore = false :=
      fun x hx => hnc x (List.mem_cons_of_mem _ hx)
    simp only [runLoop, hcb, Bool.false_eq_true, if_false, hact, if_true]
    rw [ih (iterStatus st r) (log ++ [logEntryOf r])
        (by rw [iterStatus_active]; exact hact) hnc']
    cases hout : r.outcome with
    | ok =>
      simp [iterStatus, hout, List.countP_cons, List.filter_cons, isOk,
        List.length_cons]
      constructor
      · omega
      · omega
    | failed =>
      simp [iterStatus, hout, List.countP_cons, List.filter_cons, isOk,
        List.length_cons]
      omega
    | errored m =>
      simp [iterStatus, hout, List.countP_cons, List.filter_cons, isOk,
        List.length_cons]
      omega

/-- The cumulative status after processing a block of records. -/
def iterMany (st : SendStatus) (rs : List LoopRec) : SendStatus :=
  rs.foldl iterStatus st

theorem iterMany_active (rs : List LoopRec) :
    ∀ st : SendStatus, (iterMany st rs).active = st.active := by
  induction rs with
  | nil => intro st; rfl
  | cons r rs ih =>
    intro st
    show (iterMany (iterStatus st r) rs).active = st.active
    rw [ih, iterStatus_active]

theorem iterMany_total (rs : List LoopRec) :
    ∀ st : SendStatus, (iterMany st rs).total = st.total := by
  induction rs with
  | nil => intro st; rfl
  | cons r rs ih =>
    intro st
    show (iterMany (iterStatus st r) rs).total = st.total
    rw [ih, iterStatus_total]

theorem iterMany_progress (rs : List LoopRec) :
    ∀ st : SendStatus, (iterMany st rs).progress = st.progress + rs.length := by
  induction rs with
  | nil => intro st; rfl
  | cons r rs ih =>
    intro st
    show (iterMany (iterStatus st r) rs).progress = st.progress + (r :: rs).length
    rw [ih, iterStatus_progress]
    simp only [List.length_cons]
    omega

/-- Splitting the loop at an uncancelled block. -/
theorem runLoop_append (pre : List LoopRec) :
    ∀ (st : SendStatus) (log : List LogEntry) (rest : List LoopRec),
      st.active = true → (∀ x ∈ pre, x.cancelBefore = false) →
      runLoop st log (pre ++ rest)
        = runLoop (iterMany st pre) (log ++ pre.map logEntryOf) rest := by
  induction pre with
  | nil => intro st log rest _ _; simp [iterMany]
  | cons r pre ih =>
    intro st log rest hact hnc
    have hcb : r.cancelBefore = false := hnc r (List.mem_cons_self _ _)
    simp only [List.cons_append, runLoop, hcb, Bool.false_eq_true, if_false, hact,
      if_true, List.append_eq]
    rw [ih (iterStatus st r) (log ++ [logEntryOf r]) rest
        (by rw [iterStatus_active]; exact hact)
        (fun x hx => hnc x (List.mem_cons_of_mem _ hx))]
    simp [iterMany]

end App

/-- Claim C7: an uncancelled run over `N` records ends inactive with
`progress = total = N`, `success` the number of `true` outcomes, `errors`
the emails of the non-`true` records in original order, and a log of
exactly `N` entries in original record order. -/
theorem C7_terminal_status (rs : List App.LoopRec)
    (hnc : ∀ r ∈ rs, r.cancelBefore = false) :
    (App.bulkSend rs).1.active = false
    ∧ (App.bulkSend rs).1.progress = rs.length
    ∧ (App.bulkSend rs).1.total = rs.length
    ∧ (App.bulkSend rs).1.success = rs.countP (fun r => App.isOk r.outcome)
    ∧ (App.bulkSend rs).1.errors
        = (rs.filter (fun r => !App.isOk r.outcome)).map App.LoopRec.email
    ∧ (App.bulkSend rs).2 = rs.map App.logEntryOf
    ∧ (App.bulkSend rs).2.length = rs.length := by
  unfold App.bulkSend
  rw [App.runLoop_no_cancel rs (App.initStatus rs.length) [] rfl hnc]
  simp [App.initStatus]

/-- Witness for C7: three records with outcomes true, false, true. -/
theorem C7_terminal_status_witness :
    ((App.bulkSend
        [{ email := "a@x.com", outcome := App.SendOutcome.ok, ts := "t1", cancelBefore := false },
         { email := "b@y.org", outcome := App.SendOutcome.failed, ts := "t2", cancelBefore := false },
         { email := "c@z.net", outcome := App.SendOutcome.ok, ts := "t3", cancelBefore := false }]).1.progress = 3
    ∧ (App.bulkSend
        [{ email := "a@x.com", outcome := App.SendOutcome.ok, ts := "t1", cancelBefore := false },
         { email := "b@y.org", outcome := App.SendOutcome.failed, ts := "t2", cancelBefore := false },
         { email := "c@z.net", outcome := App.SendOutcome.ok, ts := "t3", cancelBefore := false }]).1.errors
      = ["b@y.org"])
    ∧ (App.bulkSend
        [{ email := "a@x.com", outcome := App.SendOutcome.ok, ts := "t1", cancelBefore := false },
         { email := "b@y.org", outcome := App.SendOutcome.failed, ts := "t2", cancelBefore := false },
         { email := "c@z.net", outcome := App.SendOutcome.ok, ts := "t3", cancelBefore := false }]).1.success = 2 :=
  ⟨⟨((C7_terminal_status _ (by decide)).2.1).trans (by decide),
    ((C7_terminal_status _ (by decide)).2.2.2.2.1).trans (by decide)⟩,
   ((C7_terminal_status
      [{ email := "a@x.com", outcome := App.SendOutcome.ok, ts := "t1", cancelBefore := false },
       { email := "b@y.org", outcome := App.SendOutcome.failed, ts := "t2", cancelBefore := false },
       { email := "c@z.net", outcome := App.SendOutcome.ok, ts := "t3", cancelBefore := false }]
      (by decide)).2.2.2.1).trans (by decide)⟩

/-- Claim C8: cancellation takes effect only at the top of an iteration —
if `active` is flipped off after `k` records and before record `k+1` is
examined, the run halts with `progress = k`, the log holds exactly the
`k` processed records, and nothing is attempted for the rest. -/
theorem C8_cooperative_cancellation (pre post : List App.LoopRec) (r : App.LoopRec)
    (hpre : ∀ x ∈ pre, x.cancelBefore = false) (hr : r.cancelBefore = true) :
    (App.bulkSend (pre ++ r :: post)).1.active = false
    ∧ (App.bulkSend (pre ++ r :: post)).1.progress = pre.length
    ∧ (App.bulkSend (pre ++ r :: post)).1.total = pre.length + 1 + post.length
    ∧ (App.bulkSend (pre ++ r :: post)).2 = pre.map App.logEntryOf
    ∧ (App.bulkSend (pre ++ r :: post)).1.progress
        < (App.bulkSend (pre ++ r :: post)).1.total := by
  unfold App.bulkSend
  rw [App.runLoop_append pre (App.initStatus (pre ++ r :: post).length) [] (r :: post)
      rfl hpre]
  have hstep : App.runLoop (App.iterMany (App.initStatus (pre ++ r :: post).length) pre)
      ([] ++ pre.map App.logEntryOf) (r :: post)
      = ({ App.iterMany (App.initStatus (pre ++ r :: post).length) pre with
            active := false }, pre.map App.logEntryOf) := by
    simp [App.runLoop, hr]
  rw [hstep]
  have hprog := App.iterMany_progress pre (App.initStatus (pre ++ r :: post).length)
  have htot := App.iterMany_total pre (App.initStatus (pre ++ r :: post).length)
  have hlen : (pre ++ r :: post).length = pre.length + 1 + post.length := by
    simp [List.length_append]
    omega
  refine ⟨rfl, ?_, ?_, rfl, ?_⟩
  · show (App.iterMany (App.initStatus (pre ++ r :: post).length) pre).progress = pre.length
    rw [hprog]
    simp [App.initStatus]
  · show (App.iterMany (App.initStatus (pre ++ r :: post).length) pre).total
      = pre.length + 1 + post.length
    rw [htot]
    simp only [App.initStatus]
    rw [hlen]
  · show (App.iterMany (App.initStatus (pre ++ r :: post).length) pre).progress
      < (App.iterMany (App.initStatus (pre ++ r :: post).length) pre).total
    rw [hprog, htot]
    simp only [App.initStatus]
    rw [hlen]
    omega

/-- Witness for C8: cancelling before record 3 of 3 stops at progress 2. -/
theorem C8_cooperative_cancellation_witness :
    (App.bulkSend
        ([{ email := "a@x.com", outcome := App.SendOutcome.ok, ts := "t1", cancelBefore := false },
          { email := "b@y.org", outcome := App.SendOutcome.ok, ts := "t2", cancelBefore := false }]
          ++ { email := "c@z.net", outcome := App.SendOutcome.ok, ts := "t3",
               cancelBefore := true }
          :: ([] : List App.LoopRec))).1.progress = 2
    ∧ (App.bulkSend
        ([{ email := "a@x.com", outcome := App.SendOutcome.ok, ts := "t1", cancelBefore := false },
          { email := "b@y.org", outcome := App.SendOutcome.ok, ts := "t2", cancelBefore := false }]
          ++ { email := "c@z.net", outcome := App.SendOutcome.ok, ts := "t3",
               cancelBefore := true }
          :: ([] : List App.LoopRec))).1.total = 3 :=
  ⟨((C8_cooperative_cancellation
      [{ email := "a@x.com", outcome := App.SendOutcome.ok, ts := "t1", cancelBefore := false },
       { email := "b@y.org", outcome := App.SendOutcome.ok, ts := "t2", cancelBefore := false }]
      [] { email := "c@z.net", outcome := App.SendOutcome.ok, ts := "t3", cancelBefore := true }
      (by decide) (by decide)).2.1).trans (by decide),
   ((C8_cooperative_cancellation
      [{ email := "a@x.com", outcome := App.SendOutcome.ok, ts := "t1", cancelBefore := false },
       { email := "b@y.org", outcome := App.SendOutcome.ok, ts := "t2", cancelBefore := false }]
      [] { email := "c@z.net", outcome := App.SendOutcome.ok, ts := "t3", cancelBefore := true }
      (by decide) (by decide)).2.2.1).trans (by decide)⟩

namespace App

/-- The statuses observable during a run: the status at the top of each
executed iteration plus the terminal status. -/
def loopTrace : SendStatus → List LoopRec → List SendStatus
  | st, [] => [{ st with active := false }]
  | st, r :: rs =>
    let st0 := if r.cancelBefore then { st with active := false } else st
    if st0.active then
      st0 :: loopTrace (iterStatus st0 r) rs
    else
      [{ st0 with active := false }]

/-- The loop invariant, propagated along the trace. -/
theorem loopTrace_inv (rs : List LoopRec) :
    ∀ st : SendStatus, st.success + st.errors.length = st.progress →
      st.progress + rs.length ≤ st.total →
      ∀ s ∈ loopTrace st rs,
        s.success + s.errors.length = s.progress ∧ s.progress ≤ s.total := by
  induction rs with
  | nil =>
    intro st hinv hle s hs
    obtain ⟨a, p, tot, suc, err⟩ := st
    simp only [loopTrace, List.mem_singleton] at hs
    subst hs
    simp only [List.length_nil, Nat.add_zero] at hle
    exact ⟨hinv, hle⟩
  | cons r rs ih =>
    intro st hinv hle s hs
    obtain ⟨a, p, tot, suc, err⟩ := st
    simp only [List.length_cons] at hle
    simp only at hinv
    cases hcb : r.cancelBefore with
    | true =>
      simp only [loopTrace, hcb, if_true, Bool.false_eq_true, if_false,
        List.mem_singleton] at hs
      subst hs
      exact ⟨hinv, show p ≤ tot by omega⟩
    | false =>
      cases a with
      | true =>
        simp only [loopTrace, hcb, Bool.false_eq_true, if_false, if_true] at hs
        rcases List.mem_cons.1 hs with hs | hs
        · subst hs
          exact ⟨hinv, show p ≤ tot by omega⟩
        · refine ih (iterStatus (⟨true, p, tot, suc, err⟩ : SendStatus) r) ?_ ?_ s hs
          · obtain ⟨e, o, t, c⟩ := r
            cases o with
            | ok =>
              show suc + 1 + err.length = p + 1
              omega
            | failed =>
              show suc + (err ++ [e]).length = p + 1
              simp only [List.length_append, List.length_cons, List.length_nil]
              omega
            | errored m =>
              show suc + (err ++ [e]).length = p + 1
              simp only [List.length_append, List.length_cons, List.length_nil]
              omega
          · rw [iterStatus_progress, iterStatus_total]
            show p + 1 + rs.length ≤ tot
            omega
      | false =>
        simp only [loopTrace, hcb, Bool.false_eq_true, if_false,
          List.mem_singleton] at hs
        subst hs
        exact ⟨hinv, show p ≤ tot by omega⟩

end App

/-- Claim C10: throughout a run, `success + length errors = progress` and
`progress ≤ total`; each iteration adds exactly one to `progress` and
performs exactly one of `success + 1` (kept errors) or appending the
record's email to `errors` (kept success), in every branch including the
exception branch. -/
theorem C10_status_invariant :
    (∀ (rs : List App.LoopRec) (s : App.SendStatus),
        s ∈ App.loopTrace (App.initStatus rs.length) rs →
        s.success + s.errors.length = s.progress ∧ s.progress ≤ s.total)
    ∧ (∀ (st : App.SendStatus) (r : App.LoopRec),
        (App.iterStatus st r).progress = st.progress + 1
        ∧ ((App.iterStatus st r).success = st.success + 1
              ∧ (App.iterStatus st r).errors = st.errors
            ∨ (App.iterStatus st r).success = st.success
              ∧ (App.iterStatus st r).errors = st.errors ++ [r.email])) := by
  constructor
  · intro rs s hs
    exact App.loopTrace_inv rs (App.initStatus rs.length) rfl (by simp [App.initStatus]) s hs
  · intro st r
    refine ⟨App.iterStatus_progress st r, ?_⟩
    obtain ⟨e, o, t, c⟩ := r
    cases o with
    | ok => left; exact ⟨rfl, rfl⟩
    | failed => right; exact ⟨rfl, rfl⟩
    | errored m => right; exact ⟨rfl, rfl⟩

/-- Witness for C10 on a concrete two-record run: the terminal status is
in the trace and satisfies the invariant. -/
theorem C10_status_invariant_witness :
    ({ active := false, progress := 2, total := 2, success := 1,
       errors := ["b@y.org"] } : App.SendStatus).success
      + ({ active := false, progress := 2, total := 2, success := 1,
           errors := ["b@y.org"] } : App.SendStatus).errors.length
      = ({ active := false, progress := 2, total := 2, success := 1,
           errors := ["b@y.org"] } : App.SendStatus).progress :=
  (C10_status_invariant.1
    [{ email := "a@x.com", outcome := App.SendOutcome.ok, ts := "t1", cancelBefore := false },
     { email := "b@y.org", outcome := App.SendOutcome.failed, ts := "t2", cancelBefore := false }]
    { active := false, progress := 2, total := 2, success := 1, errors := ["b@y.org"] }
    (by decide)).1

namespace Csv

/-! ## Log export (`utils.export_logs_to_csv`, lines 285-299)

`pd.DataFrame(logs).to_csv(index=False)`: one header row
`email,status,timestamp,error`, one row per log entry in order, each row
terminated by a newline, each field quoted minimally (quoted iff it
contains a delimiter, quote, CR or LF; inner quotes doubled). -/

def needsQuote (f : List Char) : Bool :=
  f.any (fun c => c == ',' || c == '"' || c == '\n' || c == '\r')

/-- Double every quote character (the writer's escape inside a quoted
field). -/
def dqList : List Char → List Char
  | [] => []
  | c :: cs => if c == '"' then '"' :: '"' :: dqList cs else c :: dqList cs

def escapeField (f : List Char) : List Char :=
  if needsQuote f then '"' :: (dqList f ++ ['"']) else f

/-- Comma-joined escaped fields of one row. -/
def rowBody : List (List Char) → List Char
  | [] => []
  | [f] => escapeField f
  | f :: g :: fs => escapeField f ++ ',' :: rowBody (g :: fs)

def writeRow (fs : List (List Char)) : List Char := rowBody fs ++ ['\n']

def writeRows : List (List (List Char)) → List Char
  | [] => []
  | r :: rs => writeRow r ++ writeRows rs

/-- Modelled from the spec: the repository exports the log table but has
no code that re-parses it, so re-parsing is modelled from §6 and §8 of
the spec ("a delimited table with columns email, status, timestamp,
error"; "re-parsing that table reproduces the same tuples") as a
standard delimited-table field parser: a quoted field ends at a lone
quote, a doubled quote inside it denotes one quote character. -/
def parseQuoted : List Char → List Char × List Char
  | [] => ([], [])
  | [c] => if c == '"' then ([], []) else ([c], [])
  | c :: d :: cs =>
    if c == '"' then
      if d == '"' then
        let fr := parseQuoted cs
        ('"' :: fr.1, fr.2)
      else ([], d :: cs)
    else
      let fr := parseQuoted (d :: cs)
      (c :: fr.1, fr.2)

/-- Modelled from the spec: an unquoted field extends to the next
delimiter or end of record. -/
def parseRawField : List Char → List Char × List Char
  | [] => ([], [])
  | c :: cs =>
    if c == ',' || c == '\n' then ([], c :: cs)
    else
      let fr := parseRawField cs
      (c :: fr.1, fr.2)

/-- Modelled from the spec: one field, quoted or raw. -/
def parseField (cs : List Char) : List Char × List Char :=
  if cs.head? == some '"' then parseQuoted cs.tail else parseRawField cs

/-- Modelled from the spec: one record, fields separated by commas and
terminated by a newline; the fuel bounds the number of fields. -/
def parseRecFuel : Nat → List Char → List (List Char) × List Char
  | 0, cs => ([], cs)
  | n + 1, cs =>
    let fr := parseField cs
    if fr.2.head? == some ',' then
      let gs := parseRecFuel n fr.2.tail
      (fr.1 :: gs.1, gs.2)
    else if fr.2.head? == some '\n' then
      ([fr.1], fr.2.tail)
    else
      ([fr.1], fr.2)

/-- Modelled from the spec: the records of a delimited table document. -/
def parseRowsFuel : Nat → List Char → List (List (List Char))
  | 0, _ => []
  | _ + 1, [] => []
  | n + 1, c :: cs =>
    let rr := parseRecFuel (cs.length + 2) (c :: cs)
    rr.1 :: parseRowsFuel n rr.2

end Csv

namespace Utils

/-- Embedding of `export_logs_to_csv`: header row then one row per log entry, in
order (the empty-log special case of the source produces the same
header-only string). -/
def export_logs_to_csv (logs : List App.LogEntry) : String :=
  ⟨Csv.writeRows
    (["email".data, "status".data, "timestamp".data, "error".data]
      :: logs.map (fun e => [e.email.data, e.status.data, e.timestamp.data, e.error.data]))⟩

/-- Modelled from the spec: re-parse an exported delimited table into its
rows of string fields. -/
def parseCsv (s : String) : List (List String) :=
  (Csv.parseRowsFuel (s.data.length + 1) s.data).map
    (fun row => row.map (fun f => (⟨f⟩ : String)))

end Utils

namespace Csv

/-- Parsing after printing, quoted-field case. -/
theorem parseQuoted_dq (f : List Char) :
    ∀ rest : List Char, rest.head? ≠ some '"' →
      parseQuoted (dqList f ++ '"' :: rest) = (f, rest) := by
  induction f with
  | nil =>
    intro rest hr
    cases rest with
    | nil => rfl
    | cons r0 rr =>
      have hr0 : r0 ≠ '"' := fun h => hr (by rw [h]; rfl)
      have hb : (r0 == '"') = false := by
        cases h : r0 == '"'
        · rfl
        · exact absurd (beq_iff_eq.1 h) hr0
      simp [dqList, parseQuoted, hb]
  | cons c f' ih =>
    intro rest hr
    by_cases hc : c = '"'
    · subst hc
      have hd : dqList ('"' :: f') = '"' :: '"' :: dqList f' := by simp [dqList]
      rw [hd]
      show parseQuoted ('"' :: '"' :: (dqList f' ++ '"' :: rest)) = _
      simp [parseQuoted, ih rest hr]
    · have hb : (c == '"') = false := by
        cases h : c == '"'
        · rfl
        · exact absurd (beq_iff_eq.1 h) hc
      have hd : dqList (c :: f') = c :: dqList f' := by simp [dqList, hb]
      rw [hd]
      obtain ⟨d, cs, hm2⟩ : ∃ d cs, dqList f' ++ '"' :: rest = d :: cs := by
        cases hq : dqList f' with
        | nil => exact ⟨'"', rest, by simp⟩
        | cons x xs => exact ⟨x, xs ++ '"' :: rest, by simp⟩
      show parseQuoted (c :: (dqList f' ++ '"' :: rest)) = (c :: f', rest)
      rw [hm2]
      simp only [parseQuoted, hb, Bool.false_eq_true, if_false]
      rw [← hm2, ih rest hr]

/-- Parsing after printing, raw-field case. -/
theorem parseRaw_clean (f : List Char) :
    ∀ rest : List Char, f.all (fun c => !(c == ',' || c == '\n')) = true →
      (rest.head? = some ',' ∨ rest.head? = some '\n') →
      parseRawField (f ++ rest) = (f, rest) := by
  induction f with
  | nil =>
    intro rest _ hr
    cases rest with
    | nil => simp at hr
    | cons r0 rr =>
      have hb : (r0 == ',' || r0 == '\n') = true := by
        rcases hr with hr | hr
        · simp only [List.head?_cons, Option.some.injEq] at hr
          simp [hr]
        · simp only [List.head?_cons, Option.some.injEq] at hr
          simp [hr]
      simp [parseRawField, hb]
  | cons c f' ih =>
    intro rest hall hr
    simp only [List.all_cons, Bool.and_eq_true] at hall
    have hb : (c == ',' || c == '\n') = false := by
      cases h : (c == ',' || c == '\n')
      · rfl
      · rw [h] at hall
        simp at hall
    show parseRawField (c :: (f' ++ rest)) = (c :: f', rest)
    simp only [parseRawField, hb, Bool.false_eq_true, if_false]
    rw [ih rest hall.2 hr]

/-- A field without delimiter, quote, CR or LF passes both `needsQuote`
tests negatively. -/
theorem not_needsQuote_all (f : List Char) (hq : needsQuote f = false) :
    f.all (fun c => !(c == ',' || c == '\n')) = true ∧ ∀ c ∈ f, c ≠ '"' := by
  unfold needsQuote at hq
  constructor
  · refine List.all_eq_true.2 ?_
    intro c hc
    have := List.any_eq_false.1 hq c hc
    cases h1 : c == ','
    · cases h2 : c == '\n'
      · simp [h1, h2]
      · rw [h1, h2] at this
        simp at this
    · rw [h1] at this
      simp at this
  · intro c hc hcq
    have := List.any_eq_false.1 hq c hc
    rw [hcq] at this
    simp at this

/-- Parsing after printing, one escaped field with its following
delimiter. -/
theorem parseField_escape (f : List Char) (rest : List Char)
    (hr : rest.head? = some ',' ∨ rest.head? = some '\n') :
    parseField (escapeField f ++ rest) = (f, rest) := by
  have hrq : rest.head? ≠ some '"' := by
    rcases hr with hr | hr <;> rw [hr] <;> simp
  unfold escapeField
  cases hq : needsQuote f
  · obtain ⟨hall, hnq⟩ := not_needsQuote_all f hq
    simp only [Bool.false_eq_true, if_false]
    cases hf : f with
    | nil =>
      unfold parseField
      simp only [List.nil_append]
      have : (rest.head? == some '"') = false := by
        rcases hr with hr | hr <;> rw [hr] <;> rfl
      rw [this]
      simp only [Bool.false_eq_true, if_false]
      exact parseRaw_clean [] rest (by simp) hr
    | cons c f' =>
      have hc : c ≠ '"' := hnq c (by rw [hf]; exact List.mem_cons_self _ _)
      unfold parseField
      simp only [List.cons_append, List.head?_cons]
      have : (some c == some '"') = false := by
        cases h : some c == some '"'
        · rfl
        · exact absurd (by simpa using h) hc
      rw [this]
      simp only [Bool.false_eq_true, if_false]
      have := parseRaw_clean (c :: f') rest (by rw [← hf]; exact hall) hr
      simpa using this
  · simp only [if_true]
    show parseField ('"' :: (dqList f ++ ['"']) ++ rest) = (f, rest)
    have hsp : '"' :: (dqList f ++ ['"']) ++ rest = '"' :: (dqList f ++ '"' :: rest) := by
      simp
    rw [hsp]
    unfold parseField
    simp only [List.head?_cons, List.tail_cons]
    rw [show ((some '"' == some '"') = true) from rfl]
    simp only [if_true]
    exact parseQuoted_dq f rest hrq

/-- Parsing after printing, one whole record. -/
theorem parseRec_writeRow (fields : List (List Char)) :
    ∀ (rest : List Char) (n : Nat), fields ≠ [] → fields.length ≤ n →
      parseRecFuel n (rowBody fields ++ '\n' :: rest) = (fields, rest) := by
  induction fields with
  | nil => intro rest n h _; exact absurd rfl h
  | cons f fs ih =>
    intro rest n _ hlen
    cases n with
    | zero => simp at hlen
    | succ m =>
      cases fs with
      | nil =>
        have hpf := parseField_escape f ('\n' :: rest) (Or.inr rfl)
        show parseRecFuel (m + 1) (escapeField f ++ '\n' :: rest) = ([f], rest)
        simp only [parseRecFuel, hpf]
        rfl
      | cons g gs =>
        have heq : rowBody (f :: g :: gs) ++ '\n' :: rest
            = escapeField f ++ ',' :: (rowBody (g :: gs) ++ '\n' :: rest) := by
          show (escapeField f ++ ',' :: rowBody (g :: gs)) ++ '\n' :: rest = _
          simp
        rw [heq]
        have hpf := parseField_escape f (',' :: (rowBody (g :: gs) ++ '\n' :: rest))
          (Or.inl rfl)
        simp only [parseRecFuel, hpf]
        have hrec := ih (rest) m (by intro h; cases h) (by
          simp only [List.length_cons] at hlen ⊢
          omega)
        simp only [List.head?_cons, List.tail_cons]
        rw [show ((some ',' == some ',') = true) from rfl]
        simp only [if_true, hrec]

/-- One unit of character budget per field. -/
theorem length_le_rowBody (fields : List (List Char)) (h : fields ≠ []) :
    fields.length ≤ (rowBody fields).length + 1 := by
  induction fields with
  | nil => exact absurd rfl h
  | cons f fs ih =>
    cases fs with
    | nil => simp
    | cons g gs =>
      have := ih (by intro hh; cases hh)
      show (f :: g :: gs).length ≤ (escapeField f ++ ',' :: rowBody (g :: gs)).length + 1
      simp only [List.length_cons, List.length_append] at this ⊢
      omega

/-- Parsing after printing, a whole document of records. -/
theorem parseRows_writeRows (rows : List (List (List Char))) :
    ∀ n : Nat, (∀ r ∈ rows, r ≠ []) → rows.length ≤ n →
      parseRowsFuel n (writeRows rows) = rows := by
  induction rows with
  | nil =>
    intro n _ _
    cases n with
    | zero => rfl
    | succ m => rfl
  | cons r rs ih =>
    intro n hne hlen
    cases n with
    | zero => simp at hlen
    | succ m =>
      have hr : r ≠ [] := hne r (List.mem_cons_self _ _)
      have hw : writeRows (r :: rs) = rowBody r ++ '\n' :: writeRows rs := by
        show writeRow r ++ writeRows rs = _
        unfold writeRow
        simp
      obtain ⟨c, cs, hcons⟩ : ∃ c cs, rowBody r ++ '\n' :: writeRows rs = c :: cs := by
        cases hb : rowBody r with
        | nil => exact ⟨'\n', writeRows rs, by simp⟩
        | cons x xs => exact ⟨x, xs ++ '\n' :: writeRows rs, by simp⟩
      have hlenfld : r.length ≤ cs.length + 2 := by
        have h1 := length_le_rowBody r hr
        have h2 := congrArg List.length hcons
        simp only [List.length_append, List.length_cons] at h2
        omega
      have hrec := parseRec_writeRow r (writeRows rs) (cs.length + 2) hr hlenfld
      rw [hw, hcons]
      show (let rr := parseRecFuel (cs.length + 2) (c :: cs)
        rr.1 :: parseRowsFuel m rr.2) = r :: rs
      rw [← hcons, hrec]
      have := ih m (fun x hx => hne x (List.mem_cons_of_mem _ hx))
        (by simp only [List.length_cons] at hlen; omega)
      simp only [this]

end Csv

namespace Csv

/-- Each record contributes at least its terminating newline. -/
theorem length_le_writeRows (rows : List (List (List Char))) :
    rows.length ≤ (writeRows rows).length := by
  induction rows with
  | nil => simp [writeRows]
  | cons r rs ih =>
    show (r :: rs).length ≤ (writeRow r ++ writeRows rs).length
    simp only [List.length_cons, List.length_append, writeRow]
    simp only [List.length_append, List.length_cons, List.length_nil]
    omega

end Csv

/-- Claim C9: exporting any log to the delimited table and re-parsing it
reproduces the header and the same (email, status, timestamp, error)
tuples in the same order. -/
theorem C9_log_export_roundtrip (logs : List App.LogEntry) :
    Utils.parseCsv (Utils.export_logs_to_csv logs)
      = ["email", "status", "timestamp", "error"]
        :: logs.map (fun e => [e.email, e.status, e.timestamp, e.error]) := by
  unfold Utils.parseCsv Utils.export_logs_to_csv
  have hne : ∀ r ∈ (["email".data, "status".data, "timestamp".data, "error".data]
      :: logs.map (fun e => [e.email.data, e.status.data, e.timestamp.data, e.error.data])),
      r ≠ [] := by
    intro r hr
    rcases List.mem_cons.1 hr with hr | hr
    · subst hr
      intro h
      cases h
    · obtain ⟨e, _, heq⟩ := List.mem_map.1 hr
      rw [← heq]
      intro h
      cases h
  have hlen : (["email".data, "status".data, "timestamp".data, "error".data]
      :: logs.map (fun e => [e.email.data, e.status.data, e.timestamp.data, e.error.data])).length
      ≤ (Csv.writeRows (["email".data, "status".data, "timestamp".data, "error".data]
        :: logs.map (fun e => [e.email.data, e.status.data, e.timestamp.data, e.error.data]))).length
        + 1 := by
    have := Csv.length_le_writeRows (["email".data, "status".data, "timestamp".data, "error".data]
      :: logs.map (fun e => [e.email.data, e.status.data, e.timestamp.data, e.error.data]))
    omega
  have hd : (String.mk (Csv.writeRows
      (["email".data, "status".data, "timestamp".data, "error".data]
        :: logs.map (fun e => [e.email.data, e.status.data, e.timestamp.data, e.error.data])))).data
      = Csv.writeRows (["email".data, "status".data, "timestamp".data, "error".data]
        :: logs.map (fun e => [e.email.data, e.status.data, e.timestamp.data, e.error.data])) :=
    rfl
  rw [hd]
  rw [Csv.parseRows_writeRows _ _ hne hlen]
  simp only [List.map_cons, List.map_map]
  constructor
